import Mathlib

/-!
Verification development for the DGS-Korpus OpenPose wrapper script
(`wrap_openpose.py`).  The script groups per-frame OpenPose output files by
session / camera / resolution / frame, merges them into per-session recording
documents, and serializes the result as JSON in which keypoint arrays are
collapsed onto single lines by a textual post-pass
(`re.sub(KEYPOINTS_KEY_VALUE_RE, deindent_key_value, json.dumps(..., indent=2))`).

The development shallowly embeds:
  * the JSON value model handed to `json.dumps` (ordered objects, number and
    string literals),
  * `json.dumps(..., sort_keys=False, indent=2)` restricted to that model,
  * the regular expression `KEYPOINTS_KEY_VALUE_RE =
    r'("[\w_]+?_keypoints_\dd": \[)([\n\d., -e]+?)(])'` together with the
    substitution callback `deindent_key_value`, specialised to exactly this
    pattern (Python `re` leftmost, non-overlapping, lazy-quantifier search),
  * a plain JSON reader used to state round-trip facts,
  * `extract_regex_group_fields`, `group_files` and the per-session output
    naming of `wrap_json_frames`.

All text is modelled as `List Char`.  `json.dumps` uses `ensure_ascii=True`,
so the serialized text the regex pass sees is pure ASCII; the character
classes below are therefore modelled on ASCII code points.
-/

mutual

/-- JSON values in the shape `json.dumps` receives them from the script:
objects are ordered key/value sequences (`OrderedDict` insertion order), and
a number is kept as its literal token exactly as the serializer would emit
it (the script never computes with the numbers, it only re-serializes
them). -/
inductive JVal where
  | null : JVal
  | bool : Bool → JVal
  | num : String → JVal
  | str : String → JVal
  | arr : JArr → JVal
  | obj : JObj → JVal

/-- An ordered sequence of JSON array elements. -/
inductive JArr where
  | nil : JArr
  | cons : JVal → JArr → JArr

/-- An ordered sequence of JSON object members. -/
inductive JObj where
  | nil : JObj
  | cons : String → JVal → JObj → JObj

end

/-- Build a JSON array value from a list of elements. -/
def JArr.ofList : List JVal → JArr
  | [] => .nil
  | x :: xs => .cons x (JArr.ofList xs)

/-- Build a JSON object value from an ordered list of members. -/
def JObj.ofList : List (String × JVal) → JObj
  | [] => .nil
  | (k, v) :: kvs => .cons k v (JObj.ofList kvs)

/-- Hexadecimal digit characters used by `\uXXXX` escapes (lowercase, as
CPython's `json` emits them). -/
def hexDigitChar (n : Nat) : Char :=
  if n < 10 then Char.ofNat ('0'.toNat + n) else Char.ofNat ('a'.toNat + (n - 10))

/-- `\uXXXX` escape for one basic-multilingual-plane code point, as produced
by `json.dumps` with its default `ensure_ascii=True`. -/
def uEscape (c : Char) : List Char :=
  let n := c.toNat
  ['\\', 'u', hexDigitChar (n / 4096 % 16), hexDigitChar (n / 256 % 16),
   hexDigitChar (n / 16 % 16), hexDigitChar (n % 16)]

/-- How `json.dumps` (default `ensure_ascii=True`) escapes one character of a
string literal.  Code points above the basic multilingual plane would use
surrogate pairs; the model covers the BMP, which is all the script's data
ever contains. -/
def escapeChar (c : Char) : List Char :=
  if c = '"' then ['\\', '"']
  else if c = '\\' then ['\\', '\\']
  else if c = '\n' then ['\\', 'n']
  else if c = '\t' then ['\\', 't']
  else if c = '\r' then ['\\', 'r']
  else if c.toNat = 8 then ['\\', 'b']
  else if c.toNat = 12 then ['\\', 'f']
  else if c.toNat < 0x20 ∨ 0x7f ≤ c.toNat then uEscape c
  else [c]

/-- Escape a whole string body as `json.dumps` does. -/
def escapeStr (l : List Char) : List Char := l.flatMap escapeChar

/-- `n` spaces of indentation. -/
def spaces (n : Nat) : List Char := List.replicate n ' '

mutual

/-- `json.dumps(v, sort_keys=False, indent=2)` at nesting indentation `ind`
(the script calls it with the default separators, which with an `indent`
argument are `(',', ': ')`).  Empty containers stay on one line; non-empty
containers put every element on its own line indented by two further
spaces. -/
def dumpVal (ind : Nat) : JVal → List Char
  | .null => "null".data
  | .bool true => "true".data
  | .bool false => "false".data
  | .num s => s.data
  | .str s => '"' :: (escapeStr s.data ++ ['"'])
  | .arr .nil => ['[', ']']
  | .arr (.cons x xs) =>
    '[' :: (dumpArrItems (ind + 2) (.cons x xs) ++ '\n' :: (spaces ind ++ [']']))
  | .obj .nil => ['{', '}']
  | .obj (.cons k v kvs) =>
    '{' :: (dumpObjItems (ind + 2) (.cons k v kvs) ++ '\n' :: (spaces ind ++ ['}']))

/-- The comma-separated, newline-led items of a non-empty array (the `nil`
case never arises: `dumpVal` only calls this on non-empty arrays). -/
def dumpArrItems (ind : Nat) : JArr → List Char
  | .nil => []
  | .cons x .nil => '\n' :: (spaces ind ++ dumpVal ind x)
  | .cons x (.cons y ys) =>
    '\n' :: (spaces ind ++ dumpVal ind x ++ ',' :: dumpArrItems ind (.cons y ys))

/-- The comma-separated, newline-led members of a non-empty object (the
`nil` case never arises: `dumpVal` only calls this on non-empty objects). -/
def dumpObjItems (ind : Nat) : JObj → List Char
  | .nil => []
  | .cons k v .nil =>
    '\n' :: (spaces ind ++ ('"' :: (escapeStr k.data ++ '"' :: ':' :: ' ' :: dumpVal ind v)))
  | .cons k v (.cons k' v' kvs) =>
    '\n' :: (spaces ind ++ ('"' :: (escapeStr k.data ++ '"' :: ':' :: ' ' :: dumpVal ind v))
      ++ ',' :: dumpObjItems ind (.cons k' v' kvs))

end

/-- Top-level `json.dumps(recordings, sort_keys=False, indent=2)`. -/
def dumps (v : JVal) : List Char := dumpVal 0 v

/-! ### The keypoints regular expression

`KEYPOINTS_KEY_VALUE_RE = r'("[\w_]+?_keypoints_\dd": \[)([\n\d., -e]+?)(])'`.

Note two facts about the pattern as written in the source:
  * `\d` matches exactly one digit;
  * the character class `[\n\d., -e]` contains the *range* `' '`–`'e'`
    (U+0020 through U+0065), because `-` between `' '` and `e` denotes a
    range; so the class admits `]`, `"`, `[`, `\`, all capital letters and
    the lowercase letters `a`–`e`, besides newline, digits, `.` and `,`.
-/

/-- Membership in the content class `[\n\d., -e]` (ASCII; the explicit
digits/`.`/`,` members are subsumed by the `' '`–`'e'` range but are kept to
mirror the class as written). -/
def inClass (c : Char) : Bool :=
  c = '\n' || c.isDigit || c = '.' || c = ',' || (0x20 ≤ c.toNat && c.toNat ≤ 0x65)

/-- Membership in `[\w_]` (ASCII scope: `dumps` output is pure ASCII because
of `ensure_ascii=True`, so this is exact for the text the regex scans). -/
def isWordChar (c : Char) : Bool := c.isAlphanum || c = '_'

/-- The fixed 17 characters `_keypoints_<d>d": [` that close group 1 after
the lazy `[\w_]+?` prefix. -/
def kpTail17 (d : Char) : List Char :=
  ['_', 'k', 'e', 'y', 'p', 'o', 'i', 'n', 't', 's', '_', d, 'd', '"', ':', ' ', '[']

/-- Does the text start with `_keypoints_<digit>d": [`?  On success returns
the digit and the text after the `[`. -/
def checkTail (l : List Char) : Option (Char × List Char) :=
  match l.get? 11 with
  | some d => if d.isDigit ∧ l.take 17 = kpTail17 d then some (d, l.drop 17) else none
  | none => none

/-- Scan of the lazy group 2 `([\n\d., -e]+?)` followed by group 3 `(])`:
having consumed at least one class character, stop at the earliest `]`
(the lazy quantifier prefers stopping, and nothing follows group 3 in the
pattern).  `acc` holds the reversed content so far. -/
def contentGo (acc : List Char) : List Char → Option (List Char × List Char)
  | [] => none
  | c :: rest =>
    if c = ']' then some (acc.reverse, rest)
    else if inClass c then contentGo (c :: acc) rest
    else none

/-- Group 2 must contain at least one class character before the closing
`]` is looked for (`+?` has a minimum of one). -/
def contentScan : List Char → Option (List Char × List Char)
  | [] => none
  | c :: rest => if inClass c then contentGo [c] rest else none

/-- Python `str.strip()` whitespace (space, tab, newline, carriage return,
vertical tab, form feed). -/
def isPySpace (c : Char) : Bool :=
  c = ' ' || c = '\t' || c = '\n' || c = '\r' || c.toNat = 11 || c.toNat = 12

/-- Python `str.strip()`. -/
def pyStrip (l : List Char) : List Char :=
  ((l.dropWhile isPySpace).reverse.dropWhile isPySpace).reverse

/-- The body of `deindent_key_value`: split the matched array content on
newlines, strip every line, join with single spaces, strip the result. -/
def deindent (content : List Char) : List Char :=
  pyStrip (List.intercalate [' '] ((content.splitOn '\n').map pyStrip))

/-- One attempt to complete the pattern right after the lazy key prefix:
the fixed tail `_keypoints_<digit>d": [`, then the lazy content, then `]`.
On success returns the digit, the group-2 content and the text after the
whole match. -/
def kpTryHere (l : List Char) : Option (Char × List Char × List Char) :=
  (checkTail l).bind fun p => (contentScan p.2).map fun q => (p.1, q.1, q.2)

/-- The backtracking loop of the lazy `[\w_]+?`: with reversed consumed
word characters `wRev` (at least one), first try to complete the whole
pattern here; if anything fails, extend the lazy group by one more word
character and retry.  On success returns the key prefix, the digit, the
group-2 content and the text after the match. -/
def kpLoop (wRev : List Char) : List Char → Option (List Char × Char × List Char × List Char)
  | [] => none
  | c :: rest =>
    match kpTryHere (c :: rest) with
    | some (d, content, tail) => some (wRev.reverse, d, content, tail)
    | none => if isWordChar c then kpLoop (c :: wRev) rest else none

/-- The literal characters `_keypoints_<d>d` re-attached after the lazy key
prefix `w`, i.e. the full key captured by group 1 (without its quotes). -/
def kpKeyChars (w : List Char) (d : Char) : List Char :=
  w ++ ('_' :: 'k' :: 'e' :: 'y' :: 'p' :: 'o' :: 'i' :: 'n' :: 't' :: 's' :: '_' :: d :: 'd' :: [])

/-- One attempt to match `KEYPOINTS_KEY_VALUE_RE` at the head of the text.
On success returns the replacement produced by `deindent_key_value`
(group 1 unchanged, group 2 deindented, group 3 the `]`) and the text after
the match. -/
def tryMatch : List Char → Option (List Char × List Char)
  | c₀ :: c :: rest =>
    if c₀ = '"' && isWordChar c then
      match kpLoop [c] rest with
      | some (w, d, content, tail) =>
        some ('"' :: (kpKeyChars w d ++ '"' :: ':' :: ' ' :: '[' :: (deindent content ++ [']'])), tail)
      | none => none
    else none
  | [_] => none
  | [] => none

/-- Fuel-indexed scanner for
`re.sub(KEYPOINTS_KEY_VALUE_RE, deindent_key_value, text)`: at each position
either replace a match and continue after it, or move one character
forward.  The fuel only makes the recursion structural; `kpScan` below
supplies enough fuel for it never to run out. -/
def kpScanF : Nat → List Char → List Char
  | _, [] => []
  | 0, l => l
  | fuel + 1, c :: rest =>
    match tryMatch (c :: rest) with
    | some (repl, tail) => repl ++ kpScanF fuel tail
    | none => c :: kpScanF fuel rest

/-- `re.sub(KEYPOINTS_KEY_VALUE_RE, deindent_key_value, text)`: scan left to
right, replacing leftmost non-overlapping matches.  (All matches of this
pattern are non-empty, so Python's empty-match special case never
applies.) -/
def kpScan (l : List Char) : List Char := kpScanF l.length l

/-- The whole selective-indent serializer of `write_wrapper`:
`re.sub(KEYPOINTS_KEY_VALUE_RE, deindent_key_value, json.dumps(recordings, sort_keys=False, indent=2))`. -/
def writeWrapperText (recordings : List JVal) : List Char :=
  kpScan (dumps (.arr (JArr.ofList recordings)))

/-! ### A plain JSON reader

Used to state the round-trip property: "parsing the resulting text as plain
JSON" (spec §8.3).  It models `json.loads` on the fragment of JSON the
serializer emits, keeping numbers as their literal tokens and objects in
textual member order, i.e. exactly the representation `JVal` uses. -/

/-- JSON insignificant whitespace. -/
def jsonWs (c : Char) : Bool := c = ' ' || c = '\t' || c = '\n' || c = '\r'

/-- Skip insignificant whitespace. -/
def skipWs (l : List Char) : List Char := l.dropWhile jsonWs

/-- Characters a number token may consist of. -/
def isNumChar (c : Char) : Bool :=
  c.isDigit || c = '-' || c = '+' || c = '.' || c = 'e' || c = 'E'

/-- Value of one hexadecimal digit. -/
def hexVal (c : Char) : Nat :=
  if c.isDigit then c.toNat - '0'.toNat
  else if 'a' ≤ c ∧ c ≤ 'f' then c.toNat - 'a'.toNat + 10
  else if 'A' ≤ c ∧ c ≤ 'F' then c.toNat - 'A'.toNat + 10
  else 0

/-- Read a string literal body up to the closing quote, undoing the JSON
escapes.  `acc` is the reversed content so far. -/
def parseStrBody (acc : List Char) : List Char → Option (List Char × List Char)
  | [] => none
  | '"' :: rest => some (acc.reverse, rest)
  | '\\' :: e :: rest =>
    match e with
    | '"' => parseStrBody ('"' :: acc) rest
    | '\\' => parseStrBody ('\\' :: acc) rest
    | '/' => parseStrBody ('/' :: acc) rest
    | 'n' => parseStrBody ('\n' :: acc) rest
    | 't' => parseStrBody ('\t' :: acc) rest
    | 'r' => parseStrBody ('\r' :: acc) rest
    | 'b' => parseStrBody (Char.ofNat 8 :: acc) rest
    | 'f' => parseStrBody (Char.ofNat 12 :: acc) rest
    | 'u' =>
      match rest with
      | h1 :: h2 :: h3 :: h4 :: rest' =>
        parseStrBody (Char.ofNat (((hexVal h1 * 16 + hexVal h2) * 16 + hexVal h3) * 16 + hexVal h4) :: acc) rest'
      | _ => none
    | _ => none
  | c :: rest => parseStrBody (c :: acc) rest

mutual

/-- Read one JSON value (fuel-indexed recursive descent). -/
def parseVal (fuel : Nat) (l : List Char) : Option (JVal × List Char) :=
  match fuel with
  | 0 => none
  | fuel + 1 =>
    match skipWs l with
    | 'n' :: 'u' :: 'l' :: 'l' :: rest => some (.null, rest)
    | 't' :: 'r' :: 'u' :: 'e' :: rest => some (.bool true, rest)
    | 'f' :: 'a' :: 'l' :: 's' :: 'e' :: rest => some (.bool false, rest)
    | '"' :: rest =>
      match parseStrBody [] rest with
      | some (s, rest') => some (.str (String.mk s), rest')
      | none => none
    | '[' :: rest =>
      match skipWs rest with
      | ']' :: rest' => some (.arr .nil, rest')
      | _ =>
        match parseArrItems fuel rest with
        | some (xs, rest') => some (.arr xs, rest')
        | none => none
    | '{' :: rest =>
      match skipWs rest with
      | '}' :: rest' => some (.obj .nil, rest')
      | _ =>
        match parseObjItems fuel rest with
        | some (kvs, rest') => some (.obj kvs, rest')
        | none => none
    | c :: rest =>
      if isNumChar c then
        some (.num (String.mk (c :: rest.takeWhile isNumChar)), rest.dropWhile isNumChar)
      else none
    | [] => none

/-- Read the comma-separated items of a non-empty array, including the
closing `]`. -/
def parseArrItems (fuel : Nat) (l : List Char) : Option (JArr × List Char) :=
  match fuel with
  | 0 => none
  | fuel + 1 =>
    match parseVal fuel l with
    | some (x, rest) =>
      match skipWs rest with
      | ',' :: rest' =>
        match parseArrItems fuel rest' with
        | some (xs, rest'') => some (.cons x xs, rest'')
        | none => none
      | ']' :: rest' => some (.cons x .nil, rest')
      | _ => none
    | none => none

/-- Read the comma-separated members of a non-empty object, including the
closing `}`. -/
def parseObjItems (fuel : Nat) (l : List Char) : Option (JObj × List Char) :=
  match fuel with
  | 0 => none
  | fuel + 1 =>
    match skipWs l with
    | '"' :: rest =>
      match parseStrBody [] rest with
      | some (k, rest') =>
        match skipWs rest' with
        | ':' :: rest'' =>
          match parseVal fuel rest'' with
          | some (v, rest₃) =>
            match skipWs rest₃ with
            | ',' :: rest₄ =>
              match parseObjItems fuel rest₄ with
              | some (kvs, rest₅) => some (.cons (String.mk k) v kvs, rest₅)
              | none => none
            | '}' :: rest₄ => some (.cons (String.mk k) v .nil, rest₄)
            | _ => none
          | none => none
        | _ => none
      | none => none
    | _ => none

end

/-- `json.loads`: read one value, then require only whitespace to remain. -/
def parseJson (l : List Char) : Option JVal :=
  match parseVal (l.length + 1) l with
  | some (v, rest) => if skipWs rest = [] then some v else none
  | none => none

/-! ### Filename field extraction (`extract_regex_group_fields`)

`re.search(filename_re, filename)` and the subsequent named-group accesses
are modelled by a `PyMatch`: for each of the five group names it records
whether the pattern has no such group (`.group` raises `IndexError`),
has the group but it did not participate in the match (`.group` returns
`None`), or captured text.  The pattern itself is caller-supplied
configuration, so the matcher is a parameter of the model. -/

/-- Result of `regex_match.group(name)` for one named group. -/
inductive GroupRes where
  | noGroup : GroupRes
  | unmatched : GroupRes
  | captured : String → GroupRes
  deriving DecidableEq

/-- The five named-group accesses a successful `re.search` offers to
`extract_regex_group_fields`. -/
structure PyMatch where
  id : GroupRes
  camera : GroupRes
  width : GroupRes
  height : GroupRes
  frame : GroupRes

/-- The Python exceptions the modelled fragment can raise.  (`IndexError`
from a missing group name is always caught inside
`extract_regex_group_fields` and therefore needs no constructor.) -/
inductive PyError where
  | valueError : String → PyError
  | typeError : String → PyError
  deriving DecidableEq

/-- Python `repr` of a short string as it appears in `int()`'s error
message (exact for strings without quotes or control characters). -/
def pyReprStr (s : String) : String := "'" ++ s ++ "'"

/-- Is this list a non-empty run of ASCII digits? -/
def digitRun (l : List Char) : Bool := !l.isEmpty && l.all (·.isDigit)

/-- Numeric value of a digit run. -/
def digitsVal (l : List Char) : Nat := l.foldl (fun acc c => acc * 10 + (c.toNat - '0'.toNat)) 0

/-- Python `int(s)` for a string: optional surrounding whitespace, optional
sign, then digits, with single underscores allowed between digit groups.
On failure raises `ValueError: invalid literal for int() with base 10: ...`
naming the offending literal (and nothing else). -/
def pyInt (s : String) : Except PyError Int :=
  let t := pyStrip s.data
  let core := fun (l : List Char) => if (l.splitOn '_').all digitRun then
      some ((l.filter (· ≠ '_')) |> digitsVal) else none
  let parsed : Option Int :=
    match t with
    | '-' :: rest => (core rest).map (fun n => -(n : Int))
    | '+' :: rest => (core rest).map (fun n => (n : Int))
    | rest => (core rest).map (fun n => (n : Int))
  match parsed with
  | some n => .ok n
  | none => .error (.valueError ("invalid literal for int() with base 10: " ++ pyReprStr s))

/-- The message of the `TypeError` raised by `int(None)` (CPython 3
wording). -/
def intNoneMsg : String :=
  "int() argument must be a string, a bytes-like object or a real number, not 'NoneType'"

/-- `try: x = regex_match.group(name) except IndexError: x = None` for the
non-numeric fields `id` and `camera`: a missing group name and a
non-participating group both end up as `None`. -/
def strGroupField : GroupRes → Option String
  | .noGroup => none
  | .unmatched => none
  | .captured s => some s

/-- `try: x = int(regex_match.group(name)) except IndexError: x = None` for
the numeric fields: a missing group name is caught (`None`); a
non-participating group reaches `int(None)` and raises an uncaught
`TypeError`; captured text reaches `int(text)`, whose `ValueError` on
non-numeric text is likewise uncaught. -/
def intGroupField : GroupRes → Except PyError (Option Int)
  | .noGroup => .ok none
  | .unmatched => .error (.typeError intNoneMsg)
  | .captured s => (pyInt s).map some

/-- `extract_regex_group_fields(regex_match)`: the five fields in source
order (`id`, `camera`, `width`, `height`, `frame`); the first uncaught
exception aborts the call. -/
def extract_regex_group_fields (m : PyMatch) :
    Except PyError (Option String × Option String × Option Int × Option Int × Option Int) := do
  let session_id := strGroupField m.id
  let camera := strGroupField m.camera
  let width ← intGroupField m.width
  let height ← intGroupField m.height
  let frame ← intGroupField m.frame
  return (session_id, camera, width, height, frame)

/-! ### Grouping (`group_files`)

The grouping index `session ID → camera → (width, height) → [(frame, file)]`
is modelled as nested association lists in Python-dict insertion order:
`setdefault` returns the entry of an existing key in place and appends a
new key at the end, which is exactly what `updateAssoc` does. -/

/-- The innermost `[(frame, filename)]` bucket. -/
abbrev Bucket := List (Option Int × String)

/-- `(width, height) → bucket`. -/
abbrev ResMap := List ((Option Int × Option Int) × Bucket)

/-- `camera → resolutions`. -/
abbrev CamMap := List (Option String × ResMap)

/-- `session ID → cameras`. -/
abbrev SessionMap := List (Option String × CamMap)

/-- Update the entry of `key` in place (Python dicts keep the position of
existing keys), or append `key` with `f dflt` (new dict keys go last). -/
def updateAssoc {α β : Type} [DecidableEq α] (key : α) (f : β → β) (dflt : β) :
    List (α × β) → List (α × β)
  | [] => [(key, f dflt)]
  | (k, v) :: rest => if k = key then (key, f v) :: rest else (k, v) :: updateAssoc key f dflt rest

/-- Look up a key in an association list. -/
def lookupAssoc {α β : Type} [DecidableEq α] (key : α) : List (α × β) → Option β
  | [] => none
  | (k, v) :: rest => if k = key then some v else lookupAssoc key rest

/-- Python values, as far as the membership test
`frame in frame_file_tuples` needs them: the candidate `frame` is an int or
`None`, the list elements are `(frame, filename)` pairs. -/
inductive PyVal where
  | none : PyVal
  | int : Int → PyVal
  | str : String → PyVal
  | pair : PyVal → PyVal → PyVal

/-- Python `==` on those values: equal ints, equal strings, componentwise
equal tuples; comparisons across types are `False` (no exception). -/
def pyEq : PyVal → PyVal → Bool
  | .none, .none => true
  | .int a, .int b => a == b
  | .str a, .str b => a == b
  | .pair a b, .pair c d => pyEq a c && pyEq b d
  | _, _ => false

/-- The `frame` value as a Python object. -/
def frameVal : Option Int → PyVal
  | Option.none => .none
  | Option.some n => .int n

/-- The source's duplicate test `if frame in frame_file_tuples:`:
list membership via `==` of the candidate against each element.  The
candidate is an int (or `None`) and every element is a 2-tuple. -/
def pyMemFrame (frame : Option Int) (bucket : Bucket) : Bool :=
  bucket.any fun t => pyEq (frameVal frame) (.pair (frameVal t.1) (.str t.2))

/-- Python `str` of a `(frame, filename)` tuple, used in the duplicate
error message. -/
def pyTupleStr (t : Option Int × String) : String :=
  "(" ++ (match t.1 with | Option.none => "None" | Option.some n => toString n) ++ ", '" ++ t.2 ++ "')"

/-- The duplicate error message
`'Multiple files match the same recording frame: "{}" vs "{}"'.format(filename, frame_file_tuples[frame])`.
Note the source *indexes the list at position `frame`*; the model renders
the entry when that position exists (for other frames the indexing itself
would raise, but the whole branch is unreachable, see `pyMemFrame_false`). -/
def dupFrameMessage (filename : String) (bucket : Bucket) (frame : Option Int) : String :=
  "Multiple files match the same recording frame: \"" ++ filename ++ "\" vs \"" ++
    (match frame with
     | Option.some n =>
       match bucket.get? n.toNat with
       | Option.some t => pyTupleStr t
       | Option.none => "IndexError"
     | Option.none => "TypeError") ++ "\""

/-- Insert one matched file into the index: `setdefault` down the three
levels, then the duplicate-frame check against the bucket, then append
`(frame, filename)`. -/
def insertEntry (idx : SessionMap) (sid cam : Option String) (res : Option Int × Option Int)
    (frame : Option Int) (filename : String) : Except PyError SessionMap :=
  let bucket := ((((lookupAssoc sid idx).getD []) |> lookupAssoc cam).getD [] |> lookupAssoc res).getD []
  if pyMemFrame frame bucket then
    .error (.valueError (dupFrameMessage filename bucket frame))
  else
    .ok (updateAssoc sid
      (fun cams => updateAssoc cam
        (fun ress => updateAssoc res (fun b => b ++ [(frame, filename)]) [] ress) [] cams) [] idx)

/-- The per-file loop of `group_files`: skip paths for which
`os.path.isfile` is false; run the pattern; on a match extract the fields
and insert; on no match optionally record the verbose skip message. -/
def groupFilesGo (isfile : String → Bool) (matcher : String → Option PyMatch) (verbose : Bool)
    (idx : SessionMap) (msgs : List String) :
    List String → Except PyError (SessionMap × List String)
  | [] => .ok (idx, msgs)
  | f :: rest =>
    if isfile f then
      match matcher f with
      | some m =>
        match extract_regex_group_fields m with
        | .ok (sid, cam, w, h, fr) =>
          match insertEntry idx sid cam (w, h) fr f with
          | .ok idx' => groupFilesGo isfile matcher verbose idx' msgs rest
          | .error e => .error e
        | .error e => .error e
      | none =>
        groupFilesGo isfile matcher verbose idx
          (if verbose then msgs ++ ["Ignored file not matching filename pattern: " ++ f] else msgs) rest
    else groupFilesGo isfile matcher verbose idx msgs rest

/-- Lexicographic `<` on character lists: Python's string comparison by
code points. -/
def charListLt : List Char → List Char → Bool
  | [], [] => false
  | [], _ :: _ => true
  | _ :: _, [] => false
  | a :: as, b :: bs => a.toNat < b.toNat || (a.toNat == b.toNat && charListLt as bs)

/-- Python `s1 <= s2` on strings. -/
def strLeb (s1 s2 : String) : Bool := !(charListLt s2.data s1.data)

/-- Python tuple `<=` on `(frame, filename)` as `list.sort` compares the
bucket entries: by frame index, then by filename.  (Comparing `None` with
an int raises `TypeError` in Python 3; the model orders `None` first,
which matters only for buckets mixing present and absent frame indices —
no verified property involves such a bucket.) -/
def ffLE : (Option Int × String) → (Option Int × String) → Bool
  | (Option.none, s1), (Option.none, s2) => strLeb s1 s2
  | (Option.none, _), (Option.some _, _) => true
  | (Option.some _, _), (Option.none, _) => false
  | (Option.some a, s1), (Option.some b, s2) => a < b || (a == b && strLeb s1 s2)

/-- `frame_file_tuples.sort()`.  CPython's `list.sort` is a stable sort
with respect to `<`; any stable sort by the corresponding total preorder
produces the same list, so the model uses a stable insertion sort. -/
def sortBucket (b : Bucket) : Bucket := b.insertionSort fun a b => ffLE a b = true

/-- The final sorting pass of `group_files`: the source keeps every bucket
(each exactly once, appended when created) in the flat `frame_file_lists`
and sorts them all in place; functionally this sorts every bucket of the
index. -/
def sortIndex (idx : SessionMap) : SessionMap :=
  idx.map fun e => (e.1, e.2.map fun ce => (ce.1, ce.2.map fun re => (re.1, sortBucket re.2)))

/-- `group_files(filenames, filename_re, verbose)`: fold the per-file loop
over the candidate list starting from empty index and no messages, then
sort all buckets by frame index.  Returns the index together with the
verbose skip messages. -/
def group_files (filenames : List String) (isfile : String → Bool)
    (matcher : String → Option PyMatch) (verbose : Bool) :
    Except PyError (SessionMap × List String) :=
  (groupFilesGo isfile matcher verbose [] [] filenames).map fun r => (sortIndex r.1, r.2)

/-! ### Session assembly and output naming (`load_recording`, `wrap_json_frames`) -/

/-- How `json.dumps` renders a frame-index dictionary key: `str` of the int
(a `None` frame key would be rendered `"null"`). -/
def frameKey : Option Int → String
  | Option.some n => toString n
  | Option.none => "null"

/-- `load_recording(frame_file_tuples, session_id, camera, width, height)`:
the recording `OrderedDict` with the optional metadata fields in source
order followed by `"frames"`, whose members are the per-frame documents in
ascending frame order (the source re-sorts with `sorted(...)`).  Reading
and JSON-parsing a file is the external effect `readFile`; a read or parse
failure is an uncaught exception. -/
def load_recording (readFile : String → Except PyError JVal) (bucket : Bucket)
    (sid cam : Option String) (w h : Option Int) : Except PyError JVal := do
  let frames ← (sortBucket bucket).mapM fun t => (readFile t.2).map fun v => (frameKey t.1, v)
  let meta : List (String × JVal) :=
    (match sid with | Option.some s => [("id", JVal.str s)] | Option.none => []) ++
    (match cam with | Option.some c => [("camera", JVal.str c)] | Option.none => []) ++
    (match w with | Option.some n => [("width", JVal.num (toString n))] | Option.none => []) ++
    (match h with | Option.some n => [("height", JVal.num (toString n))] | Option.none => [])
  return .obj (JObj.ofList (meta ++ [("frames", .obj (JObj.ofList frames))]))

/-- The output file name chosen by `wrap_json_frames` for one session:
`SESSION_ID.openpose.json`, or `session.openpose.json` when the session ID
is absent.  (If an output directory is given the source prefixes it with
`os.path.join`; the name itself is unchanged.) -/
def outputFilenameOf (sid : Option String) : String :=
  (match sid with | Option.none => "session" | Option.some s => s) ++ ".openpose.json"

/-- `sorted(...)` on camera keys (all-`None` or all-string key sets in any
run; mixing would raise `TypeError` in Python 3, the model orders `None`
first). -/
def camLE : Option String → Option String → Bool
  | Option.none, _ => true
  | Option.some _, Option.none => false
  | Option.some a, Option.some b => strLeb a b

/-- The recordings of one session, cameras in sorted order and resolutions
in dict insertion order, each loaded by `load_recording`. -/
def sessionRecordings (readFile : String → Except PyError JVal) (sid : Option String)
    (cams : CamMap) : Except PyError (List JVal) := do
  let sorted := cams.insertionSort fun a b => camLE a.1 b.1 = true
  let nested ← sorted.mapM fun ce =>
    ce.2.mapM fun re => load_recording readFile re.2 sid ce.1 re.1.1 re.1.2
  return nested.flatten

/-- `wrap_json_frames(input_filenames, ...)` up to the actual file writes:
group, then per session (in index order) produce the pair of output file
name and serialized wrapper text.  An uncaught exception anywhere aborts
the invocation. -/
def wrap_json_frames (filenames : List String) (isfile : String → Bool)
    (matcher : String → Option PyMatch) (readFile : String → Except PyError JVal)
    (verbose : Bool) : Except PyError (List (String × List Char)) := do
  let (idx, _msgs) ← group_files filenames isfile matcher verbose
  idx.mapM fun se => do
    let recs ← sessionRecordings readFile se.1 se.2
    return (outputFilenameOf se.1, writeWrapperText recs)

/-! ### Concrete inputs used by the verified claims -/

/-- A matcher under which every path matches and yields the same
`(session, camera, resolution, frame)` key — the duplicate-frame
situation. -/
def dupKeyMatcher : String → Option PyMatch := fun _ =>
  some ⟨.captured "A", .captured "c1", .captured "640", .captured "480", .captured "0"⟩

/-- A matcher whose `width` group captured non-numeric text. -/
def badWidthMatcher : String → Option PyMatch := fun _ =>
  some ⟨.noGroup, .noGroup, .captured "ab", .noGroup, .noGroup⟩

/-- A recording list whose keypoints array holds the string `"a ]b"` — a
value the content class of `KEYPOINTS_KEY_VALUE_RE` happens to cover up to
the `]` inside the string. -/
def roundtripRecs : List JVal :=
  [.obj (JObj.ofList [("frames", .obj (JObj.ofList [("0",
    .obj (JObj.ofList [("a_keypoints_2d", .arr (JArr.ofList [.str "a ]b"]))]))]))])]

/-- What the serialized form of `roundtripRecs` actually parses back to:
the space of `"a ]b"` is gone. -/
def roundtripActualRecs : List JVal :=
  [.obj (JObj.ofList [("frames", .obj (JObj.ofList [("0",
    .obj (JObj.ofList [("a_keypoints_2d", .arr (JArr.ofList [.str "a]b"]))]))]))])]

/-- A recording with an *empty* keypoints array followed by an unrelated
key `b`. -/
def emptyKpRecs : List JVal :=
  [.obj (JObj.ofList [("a_keypoints_2d", .arr .nil), ("b", .arr (JArr.ofList [.num "1"]))])]

/-- A recording whose keypoints key has a two-digit `N` (`_keypoints_12d`). -/
def twoDigitRecs : List JVal :=
  [.obj (JObj.ofList [("a_keypoints_12d", .arr (JArr.ofList [.num "1", .num "2"]))])]

/-- A recording whose key is the bare suffix `_keypoints_2d` (no word
characters before `_keypoints_`), with a flat numeric array value. -/
def bareSuffixRecs : List JVal :=
  [.obj (JObj.ofList [("_keypoints_2d", .arr (JArr.ofList [.num "1.5", .num "-2"]))])]

/-- A matcher modelling a pattern that has no `id` and no `camera` capture
group at all. -/
def noIdCamMatcher : String → Option PyMatch := fun _ =>
  some ⟨.noGroup, .noGroup, .captured "640", .captured "480", .captured "0"⟩

/-- The `(session, camera, resolution, frame)` key a path contributes to
the grouping index: the pattern match followed by field extraction. -/
def extractedKey (matcher : String → Option PyMatch) (p : String) :
    Option (Option String × Option String × (Option Int × Option Int) × Option Int) :=
  match matcher p with
  | some m =>
    match extract_regex_group_fields m with
    | .ok (sid, cam, w, h, fr) => some (sid, cam, (w, h), fr)
    | .error _ => none
  | none => none

/-- The bucket of one `(session, camera, resolution)` key in the index
(empty if any level is missing). -/
def bucketAtD (idx : SessionMap) (sid cam : Option String)
    (res : Option Int × Option Int) : Bucket :=
  ((((lookupAssoc sid idx).getD []) |> lookupAssoc cam).getD [] |> lookupAssoc res).getD []

/-- The `(frame, path)` entries the paths of `l` contribute to the bucket
of the key `(sid, cam, res)`, in list order. -/
def keyEntries (matcher : String → Option PyMatch) (sid cam : Option String)
    (res : Option Int × Option Int) (l : List String) : Bucket :=
  l.filterMap fun p =>
    match extractedKey matcher p with
    | some (sid', cam', res', fr') =>
      if sid' = sid ∧ cam' = cam ∧ res' = res then some (fr', p) else none
    | none => none

/-- Strictly ascending numeric frame order between two bucket entries'
frame indices. -/
def frameLt (a b : Option Int) : Prop := ∃ x y, a = some x ∧ b = some y ∧ x < y

/-- A recording list of the shape the script builds — one session `A`,
camera `c1`, resolution 640×480, one frame `0` whose document has a single
member: the key `K` with a flat array of number literals.  Used to settle
the serializer claims with the key and the array contents universally
quantified. -/
def canonRecs (K : String) (ns : List String) : List JVal :=
  [.obj (JObj.ofList [("id", .str "A"), ("camera", .str "c1"), ("width", .num "640"),
    ("height", .num "480"),
    ("frames", .obj (JObj.ofList [("0",
      .obj (JObj.ofList [(K, .arr (JArr.ofList (ns.map JVal.num)))]))]))])]

/-- A well-formed JSON number literal as `json.dumps` emits it: non-empty,
made of digits, `.`, `-`, `+` and `e` (all negative, decimal and
exponential notations are of this shape). -/
def NumTok (s : String) : Prop :=
  s.data ≠ [] ∧ ∀ c ∈ s.data, c.isDigit = true ∨ c = '.' ∨ c = '-' ∨ c = '+' ∨ c = 'e'

/-- The serialized text of `canonRecs` before the key's opening quote. -/
def preText : List Char :=
  "[\n  \x7b\n    \"id\": \"A\",\n    \"camera\": \"c1\",\n    \"width\": 640,\n    \"height\": 480,\n    \"frames\": \x7b\n      \"0\": \x7b\n        ".data

/-- The serialized text of `canonRecs` after the keypoint array's closing
bracket. -/
def postText : List Char := "\n      \x7d\n    \x7d\n  \x7d\n]".data

/-- The single-line rendering `n1, n2, ..., nk` the de-indentation pass
produces for a flat array of number literals. -/
def commaSpaceJoin (ns : List String) : List Char :=
  List.intercalate [',', ' '] (ns.map String.data)

/-- The multi-line rendering of the keypoint array's contents between its
brackets in the plain pretty-print (items at indentation 10, closing
bracket back at indentation 8). -/
def bodyOf (ns : List String) : List Char :=
  dumpArrItems 10 (JArr.ofList (ns.map JVal.num)) ++ '\n' :: spaces 8

/-- A text chunk the scanner passes over unchanged wherever it occurs:
`re.sub` copies it verbatim and carries on scanning whatever follows it. -/
def ScanTrans (u : List Char) : Prop := ∀ r : List Char, kpScan (u ++ r) = u ++ kpScan r

/-- The stripped lines of the keypoint array's multi-line pretty-print, one
per element, each but the last carrying its trailing comma. -/
def numLines : List String → List (List Char)
  | [] => []
  | [n] => [n.data]
  | n :: m :: rest => (n.data ++ [',']) :: numLines (m :: rest)

/-! ### Basic lemmas about the match scanner -/

theorem contentGo_length {acc l cont tail} (h : contentGo acc l = some (cont, tail)) :
    tail.length < l.length := by
  induction l generalizing acc with
  | nil => simp [contentGo] at h
  | cons c rest ih =>
    simp only [contentGo] at h
    split at h
    · cases h; simp
    · split at h
      · exact Nat.lt_succ_of_lt (ih h)
      · exact absurd h (by simp)

theorem contentScan_length {l cont tail} (h : contentScan l = some (cont, tail)) :
    tail.length < l.length := by
  cases l with
  | nil => simp [contentScan] at h
  | cons c rest =>
    simp only [contentScan] at h
    split at h
    · exact Nat.lt_succ_of_lt (contentGo_length h)
    · exact absurd h (by simp)

theorem checkTail_some {l d r} (h : checkTail l = some (d, r)) :
    d.isDigit ∧ l = kpTail17 d ++ r := by
  unfold checkTail at h
  split at h
  case h_2 => exact absurd h (by simp)
  case h_1 d' heq =>
    split at h
    case isFalse => exact absurd h (by simp)
    case isTrue hcond =>
      obtain ⟨hd, ht⟩ := hcond
      cases h
      refine ⟨hd, ?_⟩
      have hlen : 17 ≤ l.length := by
        by_contra hlt
        push_neg at hlt
        have : l.take 17 = l := List.take_of_length_le (by omega)
        rw [this] at ht
        have := congrArg List.length ht
        simp [kpTail17] at this
        omega
      conv_lhs => rw [← List.take_append_drop 17 l]
      rw [ht]

theorem checkTail_length {l d r} (h : checkTail l = some (d, r)) :
    r.length + 17 = l.length := by
  obtain ⟨-, hl⟩ := checkTail_some h
  subst hl
  simp [kpTail17]

theorem kpTryHere_length {l d cont tail} (h : kpTryHere l = some (d, cont, tail)) :
    tail.length < l.length := by
  unfold kpTryHere at h
  rw [Option.bind_eq_some] at h
  obtain ⟨⟨dd, afterBr⟩, hct, h⟩ := h
  rw [Option.map_eq_some'] at h
  obtain ⟨⟨cc, tt⟩, hcs, heq⟩ := h
  cases heq
  have h1 := contentScan_length hcs
  have h2 := checkTail_length hct
  simp at h1 h2 ⊢
  omega

theorem kpLoop_length {wRev l w d cont tail}
    (h : kpLoop wRev l = some (w, d, cont, tail)) : tail.length < l.length := by
  induction l generalizing wRev with
  | nil => simp [kpLoop] at h
  | cons c rest ih =>
    simp only [kpLoop] at h
    cases hk : kpTryHere (c :: rest) with
    | some q =>
      obtain ⟨dd, cc, tt⟩ := q
      rw [hk] at h
      simp at h
      obtain ⟨-, -, -, htail⟩ := h
      subst htail
      exact kpTryHere_length hk
    | none =>
      rw [hk] at h
      simp at h
      exact Nat.lt_succ_of_lt (ih h.2)

theorem tryMatch_length {l repl tail} (h : tryMatch l = some (repl, tail)) :
    tail.length < l.length := by
  cases l with
  | nil => simp [tryMatch] at h
  | cons c₀ l' =>
    cases l' with
    | nil => simp [tryMatch] at h
    | cons c rest =>
      simp only [tryMatch] at h
      split at h
      · cases hk : kpLoop [c] rest with
        | some q =>
          obtain ⟨w, d, cont, tl⟩ := q
          rw [hk] at h
          simp at h
          obtain ⟨-, htail⟩ := h
          subst htail
          have := kpLoop_length hk
          simp
          omega
        | none => rw [hk] at h; exact absurd h (by simp)
      · exact absurd h (by simp)

theorem kpScanF_congr : ∀ (n m : Nat) (l : List Char),
    l.length ≤ n → l.length ≤ m → kpScanF n l = kpScanF m l := by
  intro n
  induction n with
  | zero => intro m l hn _; rw [List.length_eq_zero.mp (Nat.le_zero.mp hn)]; cases m <;> rfl
  | succ n ih =>
    intro m l hn hm
    cases l with
    | nil => cases m <;> rfl
    | cons c rest =>
      cases m with
      | zero => simp at hm
      | succ m =>
        simp only [kpScanF]
        cases ht : tryMatch (c :: rest) with
        | some p =>
          obtain ⟨repl, tail⟩ := p
          have := tryMatch_length ht
          simp only [List.length_cons] at hn hm this
          dsimp only
          rw [ih m tail (by omega) (by omega)]
        | none =>
          simp only [List.length_cons] at hn hm
          dsimp only
          rw [ih m rest (by omega) (by omega)]

theorem kpScan_nil : kpScan [] = [] := rfl

theorem kpScan_cons_none {c rest} (h : tryMatch (c :: rest) = none) :
    kpScan (c :: rest) = c :: kpScan rest := by
  unfold kpScan
  simp only [List.length_cons, kpScanF, h]

theorem kpScan_cons_some {c rest repl tail} (h : tryMatch (c :: rest) = some (repl, tail)) :
    kpScan (c :: rest) = repl ++ kpScan tail := by
  unfold kpScan
  simp only [List.length_cons, kpScanF, h]
  have := tryMatch_length h
  simp only [List.length_cons] at this
  rw [kpScanF_congr rest.length tail.length tail (by omega) le_rfl]

/-! ### Lemmas about grouping -/

/-- The duplicate test of `group_files` is identically false: the
candidate is an int or `None` while every list element is a 2-tuple, and
Python `==` across those types is `False`. -/
theorem pyMemFrame_false (frame : Option Int) (bucket : Bucket) :
    pyMemFrame frame bucket = false := by
  induction bucket with
  | nil => rfl
  | cons t rest ih =>
    simp [pyMemFrame] at ih ⊢
    refine ⟨?_, ih⟩
    cases frame <;> simp [frameVal, pyEq]

/-- Unfolding equation: a path that is not a file is skipped. -/
theorem groupFilesGo_cons_nonfile {isfile : String → Bool} {matcher verbose idx msgs f rest}
    (hf : isfile f = false) :
    groupFilesGo isfile matcher verbose idx msgs (f :: rest) =
      groupFilesGo isfile matcher verbose idx msgs rest := by
  simp only [groupFilesGo, hf]
  simp

/-- Unfolding equation: a non-matching path only (possibly) logs. -/
theorem groupFilesGo_cons_nomatch {isfile : String → Bool} {matcher : String → Option PyMatch}
    {verbose idx msgs f rest} (hf : isfile f = true) (hm : matcher f = none) :
    groupFilesGo isfile matcher verbose idx msgs (f :: rest) =
      groupFilesGo isfile matcher verbose idx
        (if verbose then msgs ++ ["Ignored file not matching filename pattern: " ++ f] else msgs)
        rest := by
  simp only [groupFilesGo, hf, hm, if_true]

/-- Unfolding equation: a matching path with successful extraction and
insertion continues with the grown index. -/
theorem groupFilesGo_cons_insert {isfile : String → Bool} {matcher : String → Option PyMatch}
    {verbose idx msgs f rest m sid cam w h fr idx'} (hf : isfile f = true)
    (hm : matcher f = some m)
    (hx : extract_regex_group_fields m = .ok (sid, cam, w, h, fr))
    (hins : insertEntry idx sid cam (w, h) fr f = .ok idx') :
    groupFilesGo isfile matcher verbose idx msgs (f :: rest) =
      groupFilesGo isfile matcher verbose idx' msgs rest := by
  simp only [groupFilesGo, hf, hm, hx, hins, if_true]

/-- Unfolding equation: a failing extraction aborts the loop. -/
theorem groupFilesGo_cons_exterr {isfile : String → Bool} {matcher : String → Option PyMatch}
    {verbose idx msgs f rest m e} (hf : isfile f = true) (hm : matcher f = some m)
    (hx : extract_regex_group_fields m = .error e) :
    groupFilesGo isfile matcher verbose idx msgs (f :: rest) = .error e := by
  simp only [groupFilesGo, hf, hm, hx, if_true]

/-- Unfolding equation: a failing insertion aborts the loop. -/
theorem groupFilesGo_cons_inserr {isfile : String → Bool} {matcher : String → Option PyMatch}
    {verbose idx msgs f rest m sid cam w h fr e} (hf : isfile f = true)
    (hm : matcher f = some m)
    (hx : extract_regex_group_fields m = .ok (sid, cam, w, h, fr))
    (hins : insertEntry idx sid cam (w, h) fr f = .error e) :
    groupFilesGo isfile matcher verbose idx msgs (f :: rest) = .error e := by
  simp only [groupFilesGo, hf, hm, hx, hins, if_true]

/-- A path for which `os.path.isfile` is false changes nothing in the
per-file loop: it is skipped before the pattern is consulted. -/
theorem groupFilesGo_skips_nonfile (isfile : String → Bool) (matcher : String → Option PyMatch)
    (verbose : Bool) (p : String) (hp : isfile p = false) :
    ∀ (pre : List String) (idx : SessionMap) (msgs : List String) (post : List String),
      groupFilesGo isfile matcher verbose idx msgs (pre ++ p :: post) =
        groupFilesGo isfile matcher verbose idx msgs (pre ++ post) := by
  intro pre
  induction pre with
  | nil =>
    intro idx msgs post
    rw [List.nil_append, List.nil_append, groupFilesGo_cons_nonfile hp]
  | cons q pre ih =>
    intro idx msgs post
    rw [List.cons_append, List.cons_append]
    by_cases hq : isfile q
    · cases hm : matcher q with
      | some m =>
        cases hx : extract_regex_group_fields m with
        | ok flds =>
          obtain ⟨sid, cam, w, h, fr⟩ := flds
          cases hins : insertEntry idx sid cam (w, h) fr q with
          | ok idx' =>
            rw [groupFilesGo_cons_insert hq hm hx hins,
              groupFilesGo_cons_insert hq hm hx hins, ih]
          | error e =>
            rw [groupFilesGo_cons_inserr hq hm hx hins,
              groupFilesGo_cons_inserr hq hm hx hins]
        | error e =>
          rw [groupFilesGo_cons_exterr hq hm hx, groupFilesGo_cons_exterr hq hm hx]
      | none =>
        rw [groupFilesGo_cons_nomatch hq hm, groupFilesGo_cons_nomatch hq hm, ih]
    · rw [groupFilesGo_cons_nonfile (eq_false_of_ne_true hq),
        groupFilesGo_cons_nonfile (eq_false_of_ne_true hq), ih]

/-- If the per-file loop succeeds, extraction succeeded for every matched
existing file in the list. -/
theorem groupFilesGo_ok_extract_ok {isfile matcher verbose}
    {l : List String} {idx : SessionMap} {msgs : List String} {r}
    (h : groupFilesGo isfile matcher verbose idx msgs l = .ok r) :
    ∀ p ∈ l, isfile p = true → ∀ m, matcher p = some m →
      ∃ flds, extract_regex_group_fields m = .ok flds := by
  induction l generalizing idx msgs with
  | nil => intro p hp; simp at hp
  | cons q rest ih =>
    intro p hp hfile m hm
    by_cases hq : isfile q
    · cases hmq : matcher q with
      | some mq =>
        cases hx : extract_regex_group_fields mq with
        | ok flds =>
          obtain ⟨sid, cam, w, hh, fr⟩ := flds
          cases hins : insertEntry idx sid cam (w, hh) fr q with
          | ok idx' =>
            rw [groupFilesGo_cons_insert hq hmq hx hins] at h
            rcases List.mem_cons.mp hp with hqq | hrest
            · subst hqq
              rw [hmq] at hm
              cases hm
              exact ⟨_, hx⟩
            · exact ih h p hrest hfile m hm
          | error e =>
            rw [groupFilesGo_cons_inserr hq hmq hx hins] at h
            exact absurd h (by simp)
        | error e =>
          rw [groupFilesGo_cons_exterr hq hmq hx] at h
          exact absurd h (by simp)
      | none =>
        rw [groupFilesGo_cons_nomatch hq hmq] at h
        rcases List.mem_cons.mp hp with hqq | hrest
        · subst hqq
          rw [hmq] at hm
          cases hm
        · exact ih h p hrest hfile m hm
    · rw [groupFilesGo_cons_nonfile (eq_false_of_ne_true hq)] at h
      rcases List.mem_cons.mp hp with hqq | hrest
      · subst hqq
        rw [eq_false_of_ne_true hq] at hfile
        cases hfile
      · exact ih h p hrest hfile m hm

/-! ### The verified claims -/

/-- C1: the spec requires that inserting a second path with the same
`(session, camera, resolution, frame)` key fail with a duplicate-frame
error naming both conflicting paths, with no output produced.  The source's
test `if frame in frame_file_tuples:` compares the int `frame` with `==`
against the `(frame, filename)` 2-tuples stored in the bucket, which is
`False` for every element, so the duplicate branch is dead code: grouping
two paths with the identical key raises nothing and keeps both entries in
the bucket (and the invocation then writes its output normally). -/
theorem duplicate_frame_error_never_raised :
    (∀ frame bucket, pyMemFrame frame bucket = false) ∧
    group_files ["f1.json", "f2.json"] (fun _ => true) dupKeyMatcher false =
      .ok ([(some "A", [(some "c1", [((some 640, some 480),
        [(some 0, "f1.json"), (some 0, "f2.json")])])])], []) :=
  ⟨pyMemFrame_false, rfl⟩

/-- C2: serializing `roundtripRecs` with the selective-indent serializer
and parsing the result as plain JSON does *not* reproduce the original
structure: the regex's content class (whose `' -e'` range admits `"` and
`]`) lets the match end at a `]` inside a string value, and
`deindent_key_value` then strips a space that was part of the string, so
`"a ]b"` comes back as `"a]b"`. -/
theorem roundtrip_fails_on_string_with_bracket :
    parseJson (writeWrapperText roundtripRecs) = some (.arr (JArr.ofList roundtripActualRecs)) ∧
    parseJson (writeWrapperText roundtripRecs) ≠ some (.arr (JArr.ofList roundtripRecs)) :=
  ⟨rfl, by
    intro hcontra
    rw [show parseJson (writeWrapperText roundtripRecs) =
        some (.arr (JArr.ofList roundtripActualRecs)) from rfl] at hcontra
    simp [roundtripActualRecs, roundtripRecs, JArr.ofList, JObj.ofList] at hcontra⟩

/-- C3 counterexample: the key `a_keypoints_12d` ends in `_keypoints_<N>d`
with `N = 12` (more than one digit), its value is a flat numeric array, yet
the serialized output leaves it untouched and multi-line (the array value
starts with a newline right after the opening bracket): `\d` in
`KEYPOINTS_KEY_VALUE_RE` matches exactly one digit. -/
theorem two_digit_kp_key_not_collapsed :
    writeWrapperText twoDigitRecs = dumps (.arr (JArr.ofList twoDigitRecs)) ∧
    "\"a_keypoints_12d\": [\n".data <:+: writeWrapperText twoDigitRecs :=
  ⟨rfl, by decide⟩

/-- C4 counterexample: the key named exactly `_keypoints_2d` ends in
`_keypoints_2d` and holds a flat numeric array, yet its serialized array
value keeps its newlines: group 1 of `KEYPOINTS_KEY_VALUE_RE` demands at
least one word character *before* `_keypoints_`, so the bare-suffix key
never matches and is never collapsed. -/
theorem bare_suffix_kp_key_keeps_newlines :
    writeWrapperText bareSuffixRecs = dumps (.arr (JArr.ofList bareSuffixRecs)) ∧
    "\"_keypoints_2d\": [\n".data <:+: writeWrapperText bareSuffixRecs :=
  ⟨rfl, by decide⟩

/-- C5: the selective-indent rewrite is *not* confined to keypoint-array
spans.  With an empty keypoints array, the lazy content group (whose
class admits `]`, `"` and `[`) runs past the empty `[]` up to the next
reachable `]`, so the match swallows the following member `"b"` and
flattens its array too: `b`'s multi-line rendering is present in the plain
pretty-print but absent from the rewritten output. -/
theorem rewrite_flattens_sibling_of_empty_kp_array :
    writeWrapperText emptyKpRecs =
      "[\n  \x7b\n    \"a_keypoints_2d\": [], \"b\": [ 1]\n  \x7d\n]".data ∧
    "\"b\": [\n      1\n    ]".data <:+: dumps (.arr (JArr.ofList emptyKpRecs)) ∧
    ¬ "\"b\": [\n      1\n    ]".data <:+: writeWrapperText emptyKpRecs :=
  ⟨rfl, by decide, by decide⟩

/-- C8 counterexample: a `width` group capturing the non-numeric text
`ab` on the path `in.json` aborts grouping with `int()`'s own
`ValueError`, whose message names only the unparsable literal — neither
the field name `width` nor the input path appears in it. -/
theorem width_value_error_names_neither_field_nor_path :
    group_files ["in.json"] (fun _ => true) badWidthMatcher false =
      .error (.valueError "invalid literal for int() with base 10: 'ab'") ∧
    ¬ "width".data <:+: "invalid literal for int() with base 10: 'ab'".data ∧
    ¬ "in.json".data <:+: "invalid literal for int() with base 10: 'ab'".data :=
  ⟨rfl, by decide, by decide⟩

/-- C8 as amended: a numeric capture group yielding non-numeric text makes
extraction raise `int()`'s `ValueError` (naming only the literal), which
propagates uncaught and aborts the whole invocation — nothing is coerced
or skipped and no output is produced — but the message does not identify
the field or the path. -/
theorem nonnumeric_width_aborts_invocation
    (filenames : List String) (isfile : String → Bool)
    (matcher : String → Option PyMatch) (readFile : String → Except PyError JVal)
    (verbose : Bool) (p : String) (m : PyMatch) (s : String) (err : PyError)
    (hmem : p ∈ filenames) (hfile : isfile p = true) (hm : matcher p = some m)
    (hw : m.width = .captured s) (herr : pyInt s = .error err) :
    extract_regex_group_fields m = .error err ∧
    ∃ e, wrap_json_frames filenames isfile matcher readFile verbose = .error e := by
  have hext : extract_regex_group_fields m = .error err := by
    simp only [extract_regex_group_fields, hw, intGroupField, herr, Except.map_error]
    rfl
  refine ⟨hext, ?_⟩
  cases hw : wrap_json_frames filenames isfile matcher readFile verbose with
  | error e => exact ⟨e, rfl⟩
  | ok outs =>
    exfalso
    unfold wrap_json_frames at hw
    cases hg : group_files filenames isfile matcher verbose with
    | error e => rw [hg] at hw; exact absurd hw (by simp [Bind.bind, Except.bind])
    | ok r =>
      unfold group_files at hg
      cases hgo : groupFilesGo isfile matcher verbose [] [] filenames with
      | error e => rw [hgo] at hg; exact absurd hg (by simp [Except.map])
      | ok r' =>
        obtain ⟨flds, hok⟩ := groupFilesGo_ok_extract_ok hgo p hmem hfile m hm
        rw [hext] at hok
        exact absurd hok (by simp)

/-- Witness for `nonnumeric_width_aborts_invocation` at a concrete run. -/
theorem nonnumeric_width_aborts_invocation_w :
    extract_regex_group_fields ⟨.noGroup, .noGroup, .captured "ab", .noGroup, .noGroup⟩ =
      .error (.valueError "invalid literal for int() with base 10: 'ab'") ∧
    ∃ e, wrap_json_frames ["in.json"] (fun _ => true) badWidthMatcher
      (fun _ => .ok .null) false = .error e :=
  nonnumeric_width_aborts_invocation ["in.json"] (fun _ => true) badWidthMatcher
    (fun _ => .ok .null) false "in.json" _ "ab" _
    (by simp) rfl rfl rfl rfl

/-- C9: a candidate path that is not an existing regular file
(`os.path.isfile` false) is silently skipped by `group_files`: with any
matcher and any verbosity the whole result — index, messages, success —
is as if the path were absent from the input list.  In particular the
matcher is never consulted for it, no message is recorded even in verbose
mode, and no error is raised. -/
theorem group_files_skips_missing_files
    (isfile : String → Bool) (matcher : String → Option PyMatch) (verbose : Bool)
    (pre post : List String) (p : String) (hp : isfile p = false) :
    group_files (pre ++ p :: post) isfile matcher verbose =
      group_files (pre ++ post) isfile matcher verbose := by
  unfold group_files
  rw [groupFilesGo_skips_nonfile isfile matcher verbose p hp]

/-- Witness for `group_files_skips_missing_files` at a concrete run. -/
theorem group_files_skips_missing_files_w :
    group_files (["a.json"] ++ "gone.json" :: ["b.json"])
        (fun s => s != "gone.json") dupKeyMatcher true =
      group_files (["a.json"] ++ ["b.json"]) (fun s => s != "gone.json") dupKeyMatcher true :=
  group_files_skips_missing_files (fun s => s != "gone.json") dupKeyMatcher true
    ["a.json"] ["b.json"] "gone.json" (by rfl)

/-- C10: a numeric capture group (`width`, `height` or `frame`) that exists
in the pattern but captured no text reaches `int(None)`, whose `TypeError`
is not caught (only `IndexError` is), so extraction fails; whereas the
`id` and `camera` groups capturing no text are simply treated as absent
(`None`). -/
theorem empty_capture_numeric_vs_string_groups :
    (∀ m : PyMatch, m.width = .unmatched →
      extract_regex_group_fields m = .error (.typeError intNoneMsg)) ∧
    (∀ m : PyMatch, m.width = .noGroup → m.height = .unmatched →
      extract_regex_group_fields m = .error (.typeError intNoneMsg)) ∧
    (∀ m : PyMatch, m.width = .noGroup → m.height = .noGroup → m.frame = .unmatched →
      extract_regex_group_fields m = .error (.typeError intNoneMsg)) ∧
    (∀ m : PyMatch, m.id = .unmatched → m.camera = .unmatched →
      m.width = .noGroup → m.height = .noGroup → m.frame = .noGroup →
      extract_regex_group_fields m = .ok (none, none, none, none, none)) := by
  refine ⟨?_, ?_, ?_, ?_⟩
  · intro m hw
    simp only [extract_regex_group_fields, hw, intGroupField]
    rfl
  · intro m hw hh
    simp only [extract_regex_group_fields, hw, hh, intGroupField]
    rfl
  · intro m hw hh hf
    simp only [extract_regex_group_fields, hw, hh, hf, intGroupField]
    rfl
  · intro m hid hcam hw hh hf
    simp only [extract_regex_group_fields, hid, hcam, hw, hh, hf, intGroupField, strGroupField]
    rfl

/-- Witness for `empty_capture_numeric_vs_string_groups` at concrete
matches. -/
theorem empty_capture_numeric_vs_string_groups_w :
    extract_regex_group_fields ⟨.captured "A", .captured "c", .unmatched, .noGroup, .noGroup⟩ =
      .error (.typeError intNoneMsg) ∧
    extract_regex_group_fields ⟨.unmatched, .unmatched, .noGroup, .noGroup, .noGroup⟩ =
      .ok (none, none, none, none, none) :=
  ⟨empty_capture_numeric_vs_string_groups.1 _ rfl,
   empty_capture_numeric_vs_string_groups.2.2.2 _ rfl rfl rfl rfl rfl⟩

/-! ### Lemmas for the session-level claims -/

/-- Inversion of a successful `Except` bind. -/
theorem except_bind_ok {ε α β : Type} {x : Except ε α} {f : α → Except ε β} {b : β}
    (h : (x >>= f) = .ok b) : ∃ a, x = .ok a ∧ f a = .ok b := by
  cases x with
  | ok a => exact ⟨a, rfl, h⟩
  | error e => simp [Bind.bind, Except.bind] at h

/-- A successful extraction returns exactly the `id` and `camera` group
values in its first two components. -/
theorem extract_ok_components {m : PyMatch} {flds}
    (h : extract_regex_group_fields m = .ok flds) :
    flds.1 = strGroupField m.id ∧ flds.2.1 = strGroupField m.camera := by
  unfold extract_regex_group_fields at h
  obtain ⟨w, hw, h⟩ := except_bind_ok h
  obtain ⟨hh, hhh, h⟩ := except_bind_ok h
  obtain ⟨fr, hfr, h⟩ := except_bind_ok h
  simp only [pure, Except.pure, Except.ok.injEq] at h
  subst h
  exact ⟨rfl, rfl⟩

/-- `insertEntry` never fails (the duplicate test is identically false)
and appends the new `(frame, filename)` pair to its key's bucket. -/
theorem insertEntry_ok (idx : SessionMap) (sid cam : Option String)
    (res : Option Int × Option Int) (fr : Option Int) (f : String) :
    insertEntry idx sid cam res fr f = .ok (updateAssoc sid
      (fun cams => updateAssoc cam
        (fun ress => updateAssoc res (fun b => b ++ [(fr, f)]) [] ress) [] cams) [] idx) := by
  simp [insertEntry, pyMemFrame_false]

/-- With a pattern that has no `id` and no `camera` group, the per-file
loop keeps all entries in the single implicit `None`/`None` session and
camera level. -/
theorem groupFilesGo_all_none {isfile : String → Bool} {matcher : String → Option PyMatch}
    {verbose : Bool}
    (hmat : ∀ p m, matcher p = some m → m.id = .noGroup ∧ m.camera = .noGroup) :
    ∀ (l : List String) (idx : SessionMap) (msgs : List String) r,
      (idx = [] ∨ ∃ ress, idx = [(none, [(none, ress)])]) →
      groupFilesGo isfile matcher verbose idx msgs l = .ok r →
      (r.1 = [] ∨ ∃ ress, r.1 = [(none, [(none, ress)])]) := by
  intro l
  induction l with
  | nil =>
    intro idx msgs r hinv h
    simp only [groupFilesGo, Except.ok.injEq] at h
    subst h
    exact hinv
  | cons p rest ih =>
    intro idx msgs r hinv h
    by_cases hf : isfile p
    · cases hm : matcher p with
      | none =>
        rw [groupFilesGo_cons_nomatch hf hm] at h
        exact ih _ _ _ hinv h
      | some m =>
        cases hx : extract_regex_group_fields m with
        | error e =>
          rw [groupFilesGo_cons_exterr hf hm hx] at h
          exact absurd h (by simp)
        | ok flds =>
          obtain ⟨sid, cam, w, hh, fr⟩ := flds
          have hcomp := extract_ok_components hx
          obtain ⟨hid, hcam⟩ := hmat p m hm
          simp only [hid, hcam, strGroupField] at hcomp
          obtain ⟨hsid, hc⟩ := hcomp
          subst hsid
          subst hc
          rw [groupFilesGo_cons_insert hf hm hx (insertEntry_ok idx none none (w, hh) fr p)] at h
          refine ih _ _ _ ?_ h
          rcases hinv with rfl | ⟨ress, rfl⟩
          · right
            exact ⟨[((w, hh), [(fr, p)])], by simp [updateAssoc]⟩
          · right
            exact ⟨updateAssoc (w, hh) (fun b => b ++ [(fr, p)]) [] ress, by simp [updateAssoc]⟩
    · rw [groupFilesGo_cons_nonfile (eq_false_of_ne_true hf)] at h
      exact ih _ _ _ hinv h

/-- In a successful run, the produced output file names are exactly the
session names of the grouping index, in index order. -/
theorem wrap_outs_fst (readFile : String → Except PyError JVal) :
    ∀ (idx : SessionMap) (outs : List (String × List Char)),
      (idx.mapM fun se => do
        let recs ← sessionRecordings readFile se.1 se.2
        pure (outputFilenameOf se.1, writeWrapperText recs)) = Except.ok outs →
      outs.map Prod.fst = idx.map fun se => outputFilenameOf se.1 := by
  intro idx
  induction idx with
  | nil =>
    intro outs h
    simp only [List.mapM_nil, pure, Except.pure, Except.ok.injEq] at h
    subst h
    rfl
  | cons se rest ih =>
    intro outs h
    rw [List.mapM_cons] at h
    obtain ⟨b, hb, h⟩ := except_bind_ok h
    obtain ⟨bs, hbs, h⟩ := except_bind_ok h
    obtain ⟨recs, hrecs, hb⟩ := except_bind_ok hb
    simp only [pure, Except.pure, Except.ok.injEq] at h hb
    subst h
    subst hb
    simp only [List.map_cons]
    rw [ih bs hbs]

/-- C7: the output file of a session is named `<session_id>.openpose.json`
when the session ID is known and the literal `session.openpose.json` when
it is absent (and a successful invocation produces exactly these names, in
index order); moreover, with a pattern that omits both the `id` and the
`camera` capture groups, every matching input lands in the single implicit
`None`/`None` session-and-camera bucket of the grouping index. -/
theorem session_output_names_and_implicit_bucket :
    outputFilenameOf none = "session.openpose.json" ∧
    (∀ s, outputFilenameOf (some s) = s ++ ".openpose.json") ∧
    (∀ filenames isfile matcher readFile verbose idx msgs outs,
      group_files filenames isfile matcher verbose = .ok (idx, msgs) →
      wrap_json_frames filenames isfile matcher readFile verbose = .ok outs →
      outs.map Prod.fst = idx.map fun se => outputFilenameOf se.1) ∧
    (∀ filenames isfile matcher verbose idx msgs,
      (∀ p m, matcher p = some m → m.id = GroupRes.noGroup ∧ m.camera = GroupRes.noGroup) →
      group_files filenames isfile matcher verbose = .ok (idx, msgs) →
      idx = [] ∨ ∃ ress, idx = [(none, [(none, ress)])]) := by
  refine ⟨rfl, fun s => rfl, ?_, ?_⟩
  · intro filenames isfile matcher readFile verbose idx msgs outs hg hw
    unfold wrap_json_frames at hw
    rw [hg] at hw
    exact wrap_outs_fst readFile idx outs hw
  · intro filenames isfile matcher verbose idx msgs hmat hg
    unfold group_files at hg
    cases hgo : groupFilesGo isfile matcher verbose [] [] filenames with
    | error e => rw [hgo] at hg; exact absurd hg (by simp [Except.map])
    | ok r =>
      rw [hgo] at hg
      simp only [Except.map, Except.ok.injEq] at hg
      have hinv := groupFilesGo_all_none hmat filenames [] [] r (Or.inl rfl) hgo
      have hidx : idx = sortIndex r.1 := by
        have := congrArg Prod.fst hg
        exact this.symm
      rcases hinv with h1 | ⟨ress, h1⟩
      · left
        rw [hidx, h1]
        rfl
      · right
        refine ⟨ress.map fun re => (re.1, sortBucket re.2), ?_⟩
        rw [hidx, h1]
        rfl

/-- Witness for `session_output_names_and_implicit_bucket` (its bucket
part) at a concrete run with a pattern lacking `id` and `camera`. -/
theorem session_output_names_and_implicit_bucket_w :
    ([(none, [(none, [((some 640, some 480), [(some 0, "f1.json")])])])] : SessionMap) = [] ∨
    ∃ ress, ([(none, [(none, [((some 640, some 480), [(some 0, "f1.json")])])])] : SessionMap) =
      [(none, [(none, ress)])] :=
  session_output_names_and_implicit_bucket.2.2.2 ["f1.json"] (fun _ => true) noIdCamMatcher
    false _ []
    (fun p m hm => by
      simp only [noIdCamMatcher, Option.some.injEq] at hm
      subst hm
      exact ⟨rfl, rfl⟩)
    (by rfl)

/-! ### Order lemmas for the bucket sort -/

theorem charListLt_asymm : ∀ {a b : List Char},
    charListLt a b = true → charListLt b a = false := by
  intro a
  induction a with
  | nil => intro b h; cases b <;> simp_all [charListLt]
  | cons x as ih =>
    intro b h
    cases b with
    | nil => simp [charListLt] at h
    | cons y bs =>
      simp only [charListLt, Bool.or_eq_true, Bool.and_eq_true, beq_iff_eq,
        decide_eq_true_eq] at h ⊢
      simp only [Bool.or_eq_false_iff, Bool.and_eq_false_iff, decide_eq_false_iff_not]
      rcases h with h | ⟨heq, hrec⟩
      · constructor
        · omega
        · left
          simp only [beq_eq_false_iff_ne, ne_eq]
          omega
      · constructor
        · omega
        · right
          exact ih hrec

theorem charListLt_eq_of_both_false : ∀ {a b : List Char},
    charListLt a b = false → charListLt b a = false → a = b := by
  intro a
  induction a with
  | nil => intro b h1 h2; cases b <;> simp_all [charListLt]
  | cons x as ih =>
    intro b h1 h2
    cases b with
    | nil => simp [charListLt] at h2
    | cons y bs =>
      simp only [charListLt, Bool.or_eq_false_iff, Bool.and_eq_false_iff,
        decide_eq_false_iff_not, beq_eq_false_iff_ne, ne_eq] at h1 h2
      obtain ⟨hlt1, h1'⟩ := h1
      obtain ⟨hlt2, h2'⟩ := h2
      have hxy : x.toNat = y.toNat := by omega
      have hc : x = y := Char.eq_of_val_eq (by
        have : x.val.toNat = y.val.toNat := hxy
        exact UInt32.eq_of_val_eq (Fin.ext this))
      subst hc
      rcases h1' with h1' | h1'
      · omega
      · rcases h2' with h2' | h2'
        · omega
        · rw [ih h1' h2']

theorem charListLt_trans : ∀ {a b c : List Char},
    charListLt a b = true → charListLt b c = true → charListLt a c = true := by
  intro a
  induction a with
  | nil =>
    intro b c h1 h2
    cases b with
    | nil => simp [charListLt] at h1
    | cons y bs => cases c with
      | nil => simp [charListLt] at h2
      | cons z cs => simp [charListLt]
  | cons x as ih =>
    intro b c h1 h2
    cases b with
    | nil => simp [charListLt] at h1
    | cons y bs =>
      cases c with
      | nil => simp [charListLt] at h2
      | cons z cs =>
        simp only [charListLt, Bool.or_eq_true, Bool.and_eq_true, beq_iff_eq,
          decide_eq_true_eq] at h1 h2 ⊢
        rcases h1 with h1 | ⟨he1, hr1⟩
        · rcases h2 with h2 | ⟨he2, hr2⟩
          · left; omega
          · left; omega
        · rcases h2 with h2 | ⟨he2, hr2⟩
          · left; omega
          · right; exact ⟨by omega, ih hr1 hr2⟩

theorem strLeb_total (a b : String) : strLeb a b = true ∨ strLeb b a = true := by
  unfold strLeb
  cases h : charListLt b.data a.data with
  | false => left; rfl
  | true => right; simp [charListLt_asymm h]

theorem strLeb_trans {a b c : String} (h1 : strLeb a b = true) (h2 : strLeb b c = true) :
    strLeb a c = true := by
  unfold strLeb at h1 h2 ⊢
  simp only [Bool.not_eq_true', Bool.not_eq_false] at h1 h2 ⊢
  cases hca : charListLt c.data a.data with
  | false => rfl
  | true =>
    exfalso
    cases hab : charListLt a.data b.data with
    | true =>
      have hcb := charListLt_trans hca hab
      rw [h2] at hcb
      simp at hcb
    | false =>
      have hba : a.data = b.data := charListLt_eq_of_both_false hab h1
      rw [hba] at hca
      rw [hca] at h2
      simp at h2

theorem ffLE_total (a b : Option Int × String) : ffLE a b = true ∨ ffLE b a = true := by
  obtain ⟨fa, sa⟩ := a
  obtain ⟨fb, sb⟩ := b
  cases fa with
  | none => cases fb with
    | none => simpa [ffLE] using strLeb_total sa sb
    | some y => left; rfl
  | some x => cases fb with
    | none => right; rfl
    | some y =>
      simp only [ffLE, Bool.or_eq_true, Bool.and_eq_true, beq_iff_eq, decide_eq_true_eq]
      rcases lt_trichotomy x y with h | h | h
      · left; left; exact h
      · subst h
        rcases strLeb_total sa sb with hs | hs
        · left; right; exact ⟨rfl, hs⟩
        · right; right; exact ⟨rfl, hs⟩
      · right; left; exact h

theorem ffLE_trans {a b c : Option Int × String}
    (h1 : ffLE a b = true) (h2 : ffLE b c = true) : ffLE a c = true := by
  obtain ⟨fa, sa⟩ := a
  obtain ⟨fb, sb⟩ := b
  obtain ⟨fc, sc⟩ := c
  cases fa with
  | none => cases fc with
    | none =>
      cases fb with
      | none =>
        simp only [ffLE] at h1 h2 ⊢
        exact strLeb_trans h1 h2
      | some y => simp [ffLE] at h2
    | some z => rfl
  | some x => cases fb with
    | none => simp [ffLE] at h1
    | some y => cases fc with
      | none => simp [ffLE] at h2
      | some z =>
        simp only [ffLE, Bool.or_eq_true, Bool.and_eq_true, beq_iff_eq,
          decide_eq_true_eq] at h1 h2 ⊢
        rcases h1 with h1 | ⟨he1, hs1⟩
        · rcases h2 with h2 | ⟨he2, hs2⟩
          · left; omega
          · left; omega
        · rcases h2 with h2 | ⟨he2, hs2⟩
          · left; omega
          · right; exact ⟨by omega, strLeb_trans hs1 hs2⟩

/-- The sorted bucket is a permutation of the original. -/
theorem sortBucket_perm (b : Bucket) : (sortBucket b).Perm b :=
  List.perm_insertionSort _ b

/-- The sorted bucket is sorted by the Python tuple order. -/
theorem sortBucket_sorted (b : Bucket) :
    List.Sorted (fun x y => ffLE x y = true) (sortBucket b) := by
  haveI : IsTotal (Option Int × String) (fun x y => ffLE x y = true) := ⟨ffLE_total⟩
  haveI : IsTrans (Option Int × String) (fun x y => ffLE x y = true) := ⟨fun _ _ _ => ffLE_trans⟩
  exact List.sorted_insertionSort _ b

/-! ### Association-list lemmas for the grouping index -/

theorem lookupAssoc_update_self {α β : Type} [DecidableEq α] (key : α) (f : β → β) (dflt : β) :
    ∀ l : List (α × β),
      lookupAssoc key (updateAssoc key f dflt l) = some (f ((lookupAssoc key l).getD dflt)) := by
  intro l
  induction l with
  | nil => simp [updateAssoc, lookupAssoc]
  | cons kv rest ih =>
    obtain ⟨k, v⟩ := kv
    by_cases hk : k = key
    · subst hk
      simp [updateAssoc, lookupAssoc]
    · simp [updateAssoc, lookupAssoc, hk, ih]

theorem lookupAssoc_update_other {α β : Type} [DecidableEq α] {key k' : α} (h : k' ≠ key)
    (f : β → β) (dflt : β) :
    ∀ l : List (α × β), lookupAssoc k' (updateAssoc key f dflt l) = lookupAssoc k' l := by
  intro l
  induction l with
  | nil => simp [updateAssoc, lookupAssoc, Ne.symm h]
  | cons kv rest ih =>
    obtain ⟨k, v⟩ := kv
    by_cases hk : k = key
    · subst hk
      have hne : k ≠ k' := fun he => h he.symm
      simp [updateAssoc, lookupAssoc, hne]
    · by_cases hk' : k = k'
      · subst hk'
        simp [updateAssoc, lookupAssoc, hk]
      · simp [updateAssoc, lookupAssoc, hk, hk', ih]

theorem lookupAssoc_mem {α β : Type} [DecidableEq α] {key : α} {v : β} :
    ∀ {l : List (α × β)}, lookupAssoc key l = some v → (key, v) ∈ l := by
  intro l
  induction l with
  | nil => intro h; simp [lookupAssoc] at h
  | cons kv rest ih =>
    obtain ⟨k, w⟩ := kv
    intro h
    by_cases hk : k = key
    · subst hk
      rw [show lookupAssoc k ((k, w) :: rest) = some w from by simp [lookupAssoc]] at h
      cases h
      exact List.mem_cons_self _ _
    · simp only [lookupAssoc, if_neg hk] at h
      exact List.mem_cons_of_mem _ (ih h)

theorem mem_lookupAssoc {α β : Type} [DecidableEq α] {key : α} {v : β} :
    ∀ {l : List (α × β)}, (l.map Prod.fst).Nodup → (key, v) ∈ l → lookupAssoc key l = some v := by
  intro l
  induction l with
  | nil => intro _ h; simp at h
  | cons kv rest ih =>
    obtain ⟨k, w⟩ := kv
    intro hnd hmem
    simp only [List.map_cons, List.nodup_cons] at hnd
    rcases List.mem_cons.mp hmem with he | hrest
    · cases he
      simp [lookupAssoc]
    · have hk : k ≠ key := by
        intro he
        subst he
        exact hnd.1 (List.mem_map.mpr ⟨(k, v), hrest, rfl⟩)
      simp only [lookupAssoc, if_neg hk]
      exact ih hnd.2 hrest

theorem mem_updateAssoc {α β : Type} [DecidableEq α] {key : α} {f : β → β} {dflt : β} {e : α × β} :
    ∀ {l : List (α × β)}, e ∈ updateAssoc key f dflt l →
      e ∈ l ∨ e = (key, f ((lookupAssoc key l).getD dflt)) := by
  intro l
  induction l with
  | nil =>
    intro h
    simp only [updateAssoc, List.mem_singleton] at h
    right
    rw [h]
    simp [lookupAssoc]
  | cons kv rest ih =>
    obtain ⟨k, v⟩ := kv
    intro h
    by_cases hk : k = key
    · subst hk
      rw [show updateAssoc k f dflt ((k, v) :: rest) = (k, f v) :: rest from by
        simp [updateAssoc]] at h
      rcases List.mem_cons.mp h with he | hr
      · right
        rw [he]
        simp [lookupAssoc]
      · left
        exact List.mem_cons_of_mem _ hr
    · rw [show updateAssoc key f dflt ((k, v) :: rest) = (k, v) :: updateAssoc key f dflt rest
        from by simp [updateAssoc, hk]] at h
      rcases List.mem_cons.mp h with he | hr
      · left
        rw [he]
        exact List.mem_cons_self _ _
      · rcases ih hr with h1 | h1
        · left
          exact List.mem_cons_of_mem _ h1
        · right
          rw [h1]
          simp [lookupAssoc, hk]

theorem updateAssoc_keys_mem {α β : Type} [DecidableEq α] {key x : α} (f : β → β) (dflt : β) :
    ∀ {l : List (α × β)}, x ∈ (updateAssoc key f dflt l).map Prod.fst →
      x ∈ l.map Prod.fst ∨ x = key := by
  intro l
  induction l with
  | nil =>
    intro h
    simp [updateAssoc] at h
    right
    exact h
  | cons kv rest ih =>
    obtain ⟨k, v⟩ := kv
    intro h
    by_cases hk : k = key
    · subst hk
      rw [show updateAssoc k f dflt ((k, v) :: rest) = (k, f v) :: rest from by
        simp [updateAssoc]] at h
      simp only [List.map_cons, List.mem_cons] at h
      rcases h with he | hr
      · right; exact he
      · left; simp [hr]
    · rw [show updateAssoc key f dflt ((k, v) :: rest) = (k, v) :: updateAssoc key f dflt rest
        from by simp [updateAssoc, hk]] at h
      simp only [List.map_cons, List.mem_cons] at h
      rcases h with he | hr
      · left; simp [he]
      · rcases ih hr with h1 | h1
        · left; simp [h1]
        · right; exact h1

theorem updateAssoc_nodup {α β : Type} [DecidableEq α] (key : α) (f : β → β) (dflt : β) :
    ∀ {l : List (α × β)}, (l.map Prod.fst).Nodup →
      ((updateAssoc key f dflt l).map Prod.fst).Nodup := by
  intro l
  induction l with
  | nil => intro _; simp [updateAssoc]
  | cons kv rest ih =>
    obtain ⟨k, v⟩ := kv
    intro hnd
    simp only [List.map_cons, List.nodup_cons] at hnd
    by_cases hk : k = key
    · subst hk
      rw [show updateAssoc k f dflt ((k, v) :: rest) = (k, f v) :: rest from by
        simp [updateAssoc]]
      simp only [List.map_cons, List.nodup_cons]
      exact hnd
    · rw [show updateAssoc key f dflt ((k, v) :: rest) = (k, v) :: updateAssoc key f dflt rest
        from by simp [updateAssoc, hk]]
      simp only [List.map_cons, List.nodup_cons]
      refine ⟨?_, ih hnd.2⟩
      intro hmem
      rcases updateAssoc_keys_mem f dflt hmem with h1 | h1
      · exact hnd.1 h1
      · exact hk h1

/-- Effect of one insertion on every bucket of the index: the target
bucket grows by the new `(frame, filename)` pair, all others are
untouched. -/
theorem bucketAtD_insert (idx : SessionMap) (sid cam : Option String)
    (res : Option Int × Option Int) (fr : Option Int) (f : String)
    (sid' cam' : Option String) (res' : Option Int × Option Int) :
    bucketAtD (updateAssoc sid
      (fun cams => updateAssoc cam
        (fun ress => updateAssoc res (fun b => b ++ [(fr, f)]) [] ress) [] cams) [] idx)
      sid' cam' res' =
      if sid' = sid ∧ cam' = cam ∧ res' = res then bucketAtD idx sid cam res ++ [(fr, f)]
      else bucketAtD idx sid' cam' res' := by
  unfold bucketAtD
  by_cases h1 : sid' = sid
  · subst h1
    rw [lookupAssoc_update_self]
    simp only [Option.getD_some]
    by_cases h2 : cam' = cam
    · subst h2
      rw [lookupAssoc_update_self]
      simp only [Option.getD_some]
      by_cases h3 : res' = res
      · subst h3
        rw [lookupAssoc_update_self]
        simp
      · rw [lookupAssoc_update_other h3]
        simp [h3]
    · rw [lookupAssoc_update_other h2]
      simp [h2]
  · rw [lookupAssoc_update_other h1]
    simp [h1]

/-- Sorting the index sorts every bucket (and `bucketAtD` commutes with
it). -/
theorem bucketAtD_sortIndex (idx : SessionMap) (sid cam : Option String)
    (res : Option Int × Option Int) :
    bucketAtD (sortIndex idx) sid cam res = sortBucket (bucketAtD idx sid cam res) := by
  unfold bucketAtD sortIndex
  have hmap : ∀ {γ : Type} (F : γ → γ) (l : List (Option String × γ)) (k : Option String),
      lookupAssoc k (l.map fun e => (e.1, F e.2)) = (lookupAssoc k l).map F := by
    intro γ F l k
    induction l with
    | nil => simp [lookupAssoc]
    | cons e rest ih =>
      by_cases hk : e.1 = k
      · simp [lookupAssoc, hk]
      · simp [lookupAssoc, hk, ih]
  rw [hmap]
  cases hl1 : lookupAssoc sid idx with
  | none => simp [lookupAssoc, sortBucket, List.insertionSort]
  | some cams =>
    simp only [Option.map_some', Option.getD_some]
    have hmap2 : ∀ (l : CamMap) (k : Option String),
        lookupAssoc k (l.map fun ce => (ce.1, ce.2.map fun re => (re.1, sortBucket re.2))) =
          (lookupAssoc k l).map fun ress => ress.map fun re => (re.1, sortBucket re.2) := by
      intro l k
      induction l with
      | nil => simp [lookupAssoc]
      | cons e rest ih =>
        by_cases hk : e.1 = k
        · simp [lookupAssoc, hk]
        · simp [lookupAssoc, hk, ih]
    rw [hmap2]
    cases hl2 : lookupAssoc cam cams with
    | none => simp [lookupAssoc, sortBucket, List.insertionSort]
    | some ress =>
      simp only [Option.map_some', Option.getD_some]
      have hmap3 : ∀ (l : ResMap) (k : Option Int × Option Int),
          lookupAssoc k (l.map fun re => (re.1, sortBucket re.2)) =
            (lookupAssoc k l).map sortBucket := by
        intro l k
        induction l with
        | nil => simp [lookupAssoc]
        | cons e rest ih =>
          by_cases hk : e.1 = k
          · simp [lookupAssoc, hk]
          · simp [lookupAssoc, hk, ih]
      rw [hmap3]
      cases hl3 : lookupAssoc res ress with
      | none => simp [sortBucket, List.insertionSort]
      | some bucket => simp

/-- Characterisation of the per-file loop on well-behaved inputs (all
candidate paths exist and extract a key): it succeeds without messages and
every bucket grows by exactly the `(frame, path)` entries of the paths
carrying its key, in input order. -/
theorem groupFilesGo_buckets {isfile : String → Bool} {matcher : String → Option PyMatch}
    {verbose : Bool} :
    ∀ (l : List String) (idx : SessionMap) (msgs : List String),
      (∀ p ∈ l, isfile p = true) →
      (∀ p ∈ l, (extractedKey matcher p).isSome) →
      ∃ idxF, groupFilesGo isfile matcher verbose idx msgs l = .ok (idxF, msgs) ∧
        ∀ sid cam res, bucketAtD idxF sid cam res =
          bucketAtD idx sid cam res ++ keyEntries matcher sid cam res l := by
  intro l
  induction l with
  | nil =>
    intro idx msgs _ _
    exact ⟨idx, rfl, fun sid cam res => by simp [keyEntries]⟩
  | cons p rest ih =>
    intro idx msgs hfile hkey
    have hf := hfile p (List.mem_cons_self _ _)
    have hk := hkey p (List.mem_cons_self _ _)
    unfold extractedKey at hk
    cases hm : matcher p with
    | none => rw [hm] at hk; simp at hk
    | some m =>
      rw [hm] at hk
      dsimp only at hk
      cases hx : extract_regex_group_fields m with
      | error e => rw [hx] at hk; simp at hk
      | ok flds =>
        obtain ⟨sidp, camp, w, hh, frp⟩ := flds
        obtain ⟨idxF, hgo, hbuck⟩ :=
          ih (updateAssoc sidp
            (fun cams => updateAssoc camp
              (fun ress => updateAssoc (w, hh) (fun b => b ++ [(frp, p)]) [] ress) [] cams) [] idx)
            msgs (fun q hq => hfile q (List.mem_cons_of_mem _ hq))
            (fun q hq => hkey q (List.mem_cons_of_mem _ hq))
        refine ⟨idxF, ?_, ?_⟩
        · rw [groupFilesGo_cons_insert hf hm hx (insertEntry_ok idx sidp camp (w, hh) frp p)]
          exact hgo
        · intro sid cam res
          rw [hbuck sid cam res, bucketAtD_insert]
          have hkp : extractedKey matcher p = some (sidp, camp, (w, hh), frp) := by
            unfold extractedKey
            rw [hm]
            dsimp only
            rw [hx]
          simp only [keyEntries, List.filterMap_cons, hkp]
          by_cases hcond : sid = sidp ∧ cam = camp ∧ res = (w, hh)
          · obtain ⟨e1, e2, e3⟩ := hcond
            subst e1
            subst e2
            subst e3
            rw [if_pos ⟨rfl, rfl, rfl⟩, if_pos ⟨rfl, rfl, rfl⟩]
            simp
          · rw [if_neg hcond, if_neg ?hc]
            case hc =>
              intro hc
              exact hcond ⟨hc.1.symm, hc.2.1.symm, hc.2.2.symm⟩

/-- One insertion preserves key uniqueness on all three levels of the
index. -/
theorem insert_preserves_nodup (idx : SessionMap) (sid cam : Option String)
    (res : Option Int × Option Int) (fr : Option Int) (f : String)
    (h1 : (idx.map Prod.fst).Nodup)
    (h2 : ∀ se ∈ idx, (se.2.map Prod.fst).Nodup)
    (h3 : ∀ se ∈ idx, ∀ ce ∈ se.2, (ce.2.map Prod.fst).Nodup) :
    ((updateAssoc sid
        (fun cams => updateAssoc cam
          (fun ress => updateAssoc res (fun b => b ++ [(fr, f)]) [] ress) [] cams) [] idx).map
        Prod.fst).Nodup ∧
    (∀ se ∈ updateAssoc sid
        (fun cams => updateAssoc cam
          (fun ress => updateAssoc res (fun b => b ++ [(fr, f)]) [] ress) [] cams) [] idx,
      (se.2.map Prod.fst).Nodup) ∧
    (∀ se ∈ updateAssoc sid
        (fun cams => updateAssoc cam
          (fun ress => updateAssoc res (fun b => b ++ [(fr, f)]) [] ress) [] cams) [] idx,
      ∀ ce ∈ se.2, (ce.2.map Prod.fst).Nodup) := by
  have hcams : (((lookupAssoc sid idx).getD []).map Prod.fst).Nodup := by
    cases hl : lookupAssoc sid idx with
    | none => simp
    | some cams => exact h2 _ (lookupAssoc_mem hl)
  have hcmem : ∀ ce ∈ (lookupAssoc sid idx).getD [], (ce.2.map Prod.fst).Nodup := by
    cases hl : lookupAssoc sid idx with
    | none => simp
    | some cams => exact h3 _ (lookupAssoc_mem hl)
  refine ⟨updateAssoc_nodup _ _ _ h1, ?_, ?_⟩
  · intro se hse
    rcases mem_updateAssoc hse with hin | heq
    · exact h2 se hin
    · rw [heq]
      exact updateAssoc_nodup _ _ _ hcams
  · intro se hse ce hce
    rcases mem_updateAssoc hse with hin | heq
    · exact h3 se hin ce hce
    · rw [heq] at hce
      rcases mem_updateAssoc hce with hin2 | heq2
      · exact hcmem ce hin2
      · rw [heq2]
        have hress : ((((lookupAssoc cam ((lookupAssoc sid idx).getD [])).getD []).map
            Prod.fst)).Nodup := by
          cases hl2 : lookupAssoc cam ((lookupAssoc sid idx).getD []) with
          | none => simp
          | some ress => exact hcmem _ (lookupAssoc_mem hl2)
        exact updateAssoc_nodup _ _ _ hress

/-- The per-file loop preserves key uniqueness on all three levels. -/
theorem groupFilesGo_nodup {isfile : String → Bool} {matcher : String → Option PyMatch}
    {verbose : Bool} :
    ∀ (l : List String) (idx : SessionMap) (msgs : List String) r,
      (idx.map Prod.fst).Nodup →
      (∀ se ∈ idx, (se.2.map Prod.fst).Nodup) →
      (∀ se ∈ idx, ∀ ce ∈ se.2, (ce.2.map Prod.fst).Nodup) →
      groupFilesGo isfile matcher verbose idx msgs l = .ok r →
      (r.1.map Prod.fst).Nodup ∧
      (∀ se ∈ r.1, (se.2.map Prod.fst).Nodup) ∧
      (∀ se ∈ r.1, ∀ ce ∈ se.2, (ce.2.map Prod.fst).Nodup) := by
  intro l
  induction l with
  | nil =>
    intro idx msgs r h1 h2 h3 h
    simp only [groupFilesGo, Except.ok.injEq] at h
    subst h
    exact ⟨h1, h2, h3⟩
  | cons p rest ih =>
    intro idx msgs r h1 h2 h3 h
    by_cases hf : isfile p
    · cases hm : matcher p with
      | none =>
        rw [groupFilesGo_cons_nomatch hf hm] at h
        exact ih _ _ _ h1 h2 h3 h
      | some m =>
        cases hx : extract_regex_group_fields m with
        | error e =>
          rw [groupFilesGo_cons_exterr hf hm hx] at h
          exact absurd h (by simp)
        | ok flds =>
          obtain ⟨sid, cam, w, hh, fr⟩ := flds
          rw [groupFilesGo_cons_insert hf hm hx (insertEntry_ok idx sid cam (w, hh) fr p)] at h
          obtain ⟨g1, g2, g3⟩ := insert_preserves_nodup idx sid cam (w, hh) fr p h1 h2 h3
          exact ih _ _ _ g1 g2 g3 h
    · rw [groupFilesGo_cons_nonfile (eq_false_of_ne_true hf)] at h
      exact ih _ _ _ h1 h2 h3 h

/-- In a bucket whose frame indices are pairwise distinct, a member's
frame index is counted exactly once. -/
theorem countP_frame_of_pairwise_ne {b : Bucket} {fr : Option Int} {p : String}
    (hpw : b.Pairwise fun s t => s.1 ≠ t.1) (hmem : (fr, p) ∈ b) :
    b.countP (fun t => t.1 == fr) = 1 := by
  induction b with
  | nil => simp at hmem
  | cons t rest ih =>
    simp only [List.pairwise_cons] at hpw
    rw [List.countP_cons]
    rcases List.mem_cons.mp hmem with he | hrest
    · have hzero : rest.countP (fun s => s.1 == fr) = 0 := by
        rw [List.countP_eq_zero]
        intro s hs
        have hne := hpw.1 s hs
        rw [← he] at hne
        simp only [beq_iff_eq]
        exact fun hc => hne hc.symm
      rw [hzero, ← he]
      simp
    · have hne : t.1 ≠ fr := hpw.1 (fr, p) hrest
      rw [ih hpw.2 hrest]
      simp [hne]

/-- Every entry a bucket receives carries a `some` frame index when every
input path extracts one. -/
theorem keyEntries_frames_some {matcher : String → Option PyMatch} {inputs : List String}
    {sid cam : Option String} {res : Option Int × Option Int}
    (hkey : ∀ p ∈ inputs, ∃ s c r n, extractedKey matcher p = some (s, c, r, some n)) :
    ∀ t ∈ keyEntries matcher sid cam res inputs, ∃ n, t.1 = some n := by
  intro t ht
  unfold keyEntries at ht
  obtain ⟨p, hp, hf⟩ := List.mem_filterMap.mp ht
  obtain ⟨s, c, r, n, hpk⟩ := hkey p hp
  rw [hpk] at hf
  dsimp only at hf
  split at hf
  · cases hf
    exact ⟨n, rfl⟩
  · exact absurd hf (by simp)

/-- With pairwise distinct extracted keys, the entries of one bucket have
pairwise distinct frame indices. -/
theorem keyEntries_pairwise_ne {matcher : String → Option PyMatch} {inputs : List String}
    {sid cam : Option String} {res : Option Int × Option Int}
    (hdist : inputs.Pairwise fun p q => extractedKey matcher p ≠ extractedKey matcher q) :
    (keyEntries matcher sid cam res inputs).Pairwise fun s t => s.1 ≠ t.1 := by
  unfold keyEntries
  rw [List.pairwise_filterMap]
  refine hdist.imp ?_
  intro a a' hne b hb b' hb'
  cases hka : extractedKey matcher a with
  | none => rw [hka] at hb; simp at hb
  | some q =>
    obtain ⟨s1, c1, r1, f1⟩ := q
    rw [hka] at hb
    dsimp only at hb
    split at hb
    case isFalse => simp at hb
    case isTrue hc1 =>
      cases hkb : extractedKey matcher a' with
      | none => rw [hkb] at hb'; simp at hb'
      | some q' =>
        obtain ⟨s2, c2, r2, f2⟩ := q'
        rw [hkb] at hb'
        dsimp only at hb'
        split at hb'
        case isFalse => simp at hb'
        case isTrue hc2 =>
          simp only [Option.mem_def, Option.some.injEq] at hb hb'
          subst hb
          subst hb'
          obtain ⟨e1, e2, e3⟩ := hc1
          obtain ⟨e4, e5, e6⟩ := hc2
          subst e1
          subst e2
          subst e3
          subst e4
          subst e5
          subst e6
          intro hff
          dsimp only at hff
          subst hff
          exact hne (hka.trans hkb.symm)

/-- A bucket with pairwise-distinct, all-present frame indices is in
strictly ascending numeric frame order after sorting. -/
theorem chain'_frames_of_sorted_bucket {ke : Bucket}
    (hpairne : ke.Pairwise fun s t => s.1 ≠ t.1)
    (hsome : ∀ t ∈ ke, ∃ n, t.1 = some n) :
    List.Chain' frameLt ((sortBucket ke).map Prod.fst) := by
  have hsorted : (sortBucket ke).Pairwise fun x y => ffLE x y = true := sortBucket_sorted ke
  have hpairne' : (sortBucket ke).Pairwise fun s t => s.1 ≠ t.1 :=
    ((sortBucket_perm ke).pairwise_iff fun h => h.symm).mpr hpairne
  have hsome' : ∀ t ∈ sortBucket ke, ∃ n, t.1 = some n :=
    fun t ht => hsome t ((sortBucket_perm ke).mem_iff.mp ht)
  have hboth := hsorted.and hpairne'
  have hlt : (sortBucket ke).Pairwise fun s t => frameLt s.1 t.1 := by
    refine List.Pairwise.imp_of_mem ?_ hboth
    intro a b ha hb hab
    obtain ⟨hle, hne⟩ := hab
    obtain ⟨x, hx⟩ := hsome' a ha
    obtain ⟨y, hy⟩ := hsome' b hb
    refine ⟨x, y, hx, hy, ?_⟩
    obtain ⟨a1, a2⟩ := a
    obtain ⟨b1, b2⟩ := b
    dsimp only at hx hy hne
    subst hx
    subst hy
    simp only [ffLE, Bool.or_eq_true, Bool.and_eq_true, beq_iff_eq,
      decide_eq_true_eq] at hle
    rcases hle with h | ⟨h, -⟩
    · exact h
    · exact absurd (by rw [h]) hne
  exact (List.pairwise_map.mpr hlt).chain'

/-- C6: for input paths that all exist, all match the pattern, and carry
pairwise-distinct `(session, camera, resolution, frame)` keys (with a
numeric frame), `group_files` succeeds; every bucket is exactly the sorted
list of the `(frame, path)` entries of the paths carrying its key; each
such tuple has exactly one entry in its bucket (which contains the tuple's
`(frame, path)` pair); and iterating any bucket of the completed index
yields frame indices in strictly ascending numeric order. -/
theorem grouping_index_unique_and_sorted
    (inputs : List String) (isfile : String → Bool) (matcher : String → Option PyMatch)
    (verbose : Bool)
    (hfile : ∀ p ∈ inputs, isfile p = true)
    (hkey : ∀ p ∈ inputs, ∃ sid cam res n, extractedKey matcher p = some (sid, cam, res, some n))
    (hdist : inputs.Pairwise fun p q => extractedKey matcher p ≠ extractedKey matcher q) :
    ∃ idx, group_files inputs isfile matcher verbose = .ok (idx, []) ∧
      (∀ sid cam res, bucketAtD idx sid cam res =
        sortBucket (keyEntries matcher sid cam res inputs)) ∧
      (∀ p sid cam res fr, p ∈ inputs → extractedKey matcher p = some (sid, cam, res, fr) →
        (fr, p) ∈ bucketAtD idx sid cam res ∧
        (bucketAtD idx sid cam res).countP (fun t => t.1 == fr) = 1) ∧
      (∀ se ∈ idx, ∀ ce ∈ se.2, ∀ re ∈ ce.2, List.Chain' frameLt (re.2.map Prod.fst)) := by
  obtain ⟨idxU, hgo, hbuck⟩ := groupFilesGo_buckets inputs [] [] hfile
    (fun p hp => by obtain ⟨s, c, r, n, h⟩ := hkey p hp; rw [h]; rfl)
  have hgf : group_files inputs isfile matcher verbose = .ok (sortIndex idxU, []) := by
    unfold group_files
    rw [hgo]
    rfl
  have hchar : ∀ sid cam res, bucketAtD (sortIndex idxU) sid cam res =
      sortBucket (keyEntries matcher sid cam res inputs) := by
    intro sid cam res
    rw [bucketAtD_sortIndex, hbuck]
    rfl
  refine ⟨sortIndex idxU, hgf, hchar, ?_, ?_⟩
  · intro p sid cam res fr hp hpk
    have hmemke : (fr, p) ∈ keyEntries matcher sid cam res inputs := by
      unfold keyEntries
      refine List.mem_filterMap.mpr ⟨p, hp, ?_⟩
      rw [hpk]
      dsimp only
      rw [if_pos ⟨rfl, rfl, rfl⟩]
    rw [hchar]
    constructor
    · exact (sortBucket_perm _).mem_iff.mpr hmemke
    · rw [(sortBucket_perm _).countP_eq]
      exact countP_frame_of_pairwise_ne (keyEntries_pairwise_ne hdist) hmemke
  · intro se hse ce hce re hre
    obtain ⟨n1, n2, n3⟩ := groupFilesGo_nodup inputs [] [] _ (by simp) (by simp) (by simp) hgo
    unfold sortIndex at hse
    obtain ⟨se₀, hse₀, hseq⟩ := List.mem_map.mp hse
    subst hseq
    obtain ⟨ce₀, hce₀, hceq⟩ := List.mem_map.mp hce
    subst hceq
    obtain ⟨re₀, hre₀, hreq⟩ := List.mem_map.mp hre
    subst hreq
    have hl1 : lookupAssoc se₀.1 idxU = some se₀.2 := mem_lookupAssoc n1 hse₀
    have hl2 : lookupAssoc ce₀.1 se₀.2 = some ce₀.2 := mem_lookupAssoc (n2 se₀ hse₀) hce₀
    have hl3 : lookupAssoc re₀.1 ce₀.2 = some re₀.2 :=
      mem_lookupAssoc (n3 se₀ hse₀ ce₀ hce₀) hre₀
    have hb : bucketAtD idxU se₀.1 ce₀.1 re₀.1 = re₀.2 := by
      unfold bucketAtD
      rw [hl1, Option.getD_some, hl2, Option.getD_some, hl3, Option.getD_some]
    have hke : re₀.2 = keyEntries matcher se₀.1 ce₀.1 re₀.1 inputs := by
      rw [← hb, hbuck]
      rfl
    dsimp only
    rw [hke]
    exact chain'_frames_of_sorted_bucket (keyEntries_pairwise_ne hdist)
      (keyEntries_frames_some hkey)

/-- Witness for `grouping_index_unique_and_sorted` at a concrete run: two
files with distinct frames in one bucket. -/
theorem grouping_index_unique_and_sorted_w :
    ∃ idx, group_files ["b.json", "a.json"] (fun _ => true)
        (fun p => some ⟨.captured "A", .captured "c1", .captured "640", .captured "480",
          .captured (if p = "b.json" then "7" else "2")⟩) false = .ok (idx, []) ∧
      (∀ sid cam res, bucketAtD idx sid cam res =
        sortBucket (keyEntries (fun p => some ⟨.captured "A", .captured "c1", .captured "640",
          .captured "480", .captured (if p = "b.json" then "7" else "2")⟩)
          sid cam res ["b.json", "a.json"])) ∧
      (∀ p sid cam res fr, p ∈ ["b.json", "a.json"] →
        extractedKey (fun p => some ⟨.captured "A", .captured "c1", .captured "640",
          .captured "480", .captured (if p = "b.json" then "7" else "2")⟩) p =
            some (sid, cam, res, fr) →
        (fr, p) ∈ bucketAtD idx sid cam res ∧
        (bucketAtD idx sid cam res).countP (fun t => t.1 == fr) = 1) ∧
      (∀ se ∈ idx, ∀ ce ∈ se.2, ∀ re ∈ ce.2, List.Chain' frameLt (re.2.map Prod.fst)) :=
  grouping_index_unique_and_sorted ["b.json", "a.json"] (fun _ => true)
    (fun p => some ⟨.captured "A", .captured "c1", .captured "640", .captured "480",
      .captured (if p = "b.json" then "7" else "2")⟩) false
    (by intro p hp; rfl)
    (by
      intro p hp
      simp only [List.mem_cons, List.mem_singleton, List.not_mem_nil, or_false] at hp
      rcases hp with rfl | rfl
      · exact ⟨some "A", some "c1", (some 640, some 480), 7, rfl⟩
      · exact ⟨some "A", some "c1", (some 640, some 480), 2, rfl⟩)
    (by
      refine List.pairwise_cons.mpr ⟨?_, List.pairwise_cons.mpr ⟨?_, List.Pairwise.nil⟩⟩
      · intro q hq
        simp only [List.mem_singleton] at hq
        subst hq
        decide
      · intro q hq
        simp at hq)

/-! ### The serializer on a canonical recording: claims C3 and C4

The claims quantify over keys and flat numeric arrays.  `canonRecs` builds
a full recording document around one such key; the lemmas below walk
`re.sub`'s scan over its serialized text: the metadata region is copied
verbatim, the keypoint key matches (and its value is collapsed by
`deindent_key_value`) exactly when the array is non-empty, and an empty
array's `[]` rendering is already collapsed, so the equation below covers
every length uniformly. -/

theorem wordChar_toNat {c : Char} (h : isWordChar c = true) :
    (0x30 ≤ c.toNat ∧ c.toNat ≤ 0x39) ∨ (0x41 ≤ c.toNat ∧ c.toNat ≤ 0x5a) ∨
    (0x61 ≤ c.toNat ∧ c.toNat ≤ 0x7a) ∨ c.toNat = 0x5f := by
  simp [isWordChar, Char.isAlphanum, Char.isAlpha, Char.isDigit, Char.isUpper, Char.isLower,
    Char.le_def] at h
  rcases h with ((⟨h1, h2⟩ | ⟨h1, h2⟩) | ⟨h1, h2⟩) | h
  · right; left; exact ⟨h1, h2⟩
  · right; right; left; exact ⟨h1, h2⟩
  · left; exact ⟨h1, h2⟩
  · right; right; right; rw [h]; rfl

theorem digit_toNat {c : Char} (h : c.isDigit = true) :
    0x30 ≤ c.toNat ∧ c.toNat ≤ 0x39 := by
  simp [Char.isDigit, Char.le_def] at h
  exact h

theorem digit_isWordChar {c : Char} (h : c.isDigit = true) : isWordChar c = true := by
  simp [isWordChar, Char.isAlphanum, h]

theorem escapeChar_word {c : Char} (h : isWordChar c = true) : escapeChar c = [c] := by
  have hr := wordChar_toNat h
  have hq : ¬(c = '"') := fun he => by subst he; revert hr; decide
  have hb : ¬(c = '\\') := fun he => by subst he; revert hr; decide
  have hn : ¬(c = '\n') := fun he => by subst he; revert hr; decide
  have ht : ¬(c = '\t') := fun he => by subst he; revert hr; decide
  have hcr : ¬(c = '\r') := fun he => by subst he; revert hr; decide
  have h8 : ¬(c.toNat = 8) := by omega
  have h12 : ¬(c.toNat = 12) := by omega
  have hrange : ¬(c.toNat < 0x20 ∨ 0x7f ≤ c.toNat) := by omega
  simp [escapeChar, hq, hb, hn, ht, hcr, h8, h12, hrange]

theorem escapeStr_word {l : List Char} (h : ∀ c ∈ l, isWordChar c = true) :
    escapeStr l = l := by
  induction l with
  | nil => rfl
  | cons c t ih =>
    simp only [escapeStr, List.flatMap_cons]
    rw [escapeChar_word (h c (by simp))]
    have := ih fun x hx => h x (by simp [hx])
    simp only [escapeStr] at this
    simp [this]

theorem dumps_canon (K : String) (ns : List String) :
    dumps (.arr (JArr.ofList (canonRecs K ns))) =
      preText ++ '"' :: (escapeStr K.data ++ '"' :: ':' :: ' ' ::
        (dumpVal 8 (.arr (JArr.ofList (ns.map JVal.num))) ++ postText)) := by
  refine Eq.trans (b := preText ++ '"' ::
    (((((escapeStr K.data ++ ('"' :: ':' :: ' ' :: dumpVal 8 (.arr (JArr.ofList (ns.map JVal.num)))))
        ++ ('\n' :: (spaces 6 ++ ['}']))) ++ ('\n' :: (spaces 4 ++ ['}'])))
        ++ ('\n' :: (spaces 2 ++ ['}']))) ++ ('\n' :: (spaces 0 ++ [']'])))) rfl ?_
  simp only [List.append_assoc, List.cons_append, List.nil_append]
  rfl


theorem tryMatch_ne_quote {c : Char} (h : c ≠ '"') (l : List Char) :
    tryMatch (c :: l) = none := by
  cases l <;> simp [tryMatch, h]

theorem tryMatch_quote_nonword {c : Char} (h : isWordChar c = false) (l : List Char) :
    tryMatch ('"' :: c :: l) = none := by
  simp [tryMatch, h]

theorem checkTail_ne_underscore {l : List Char} (h : l.head? ≠ some '_') :
    checkTail l = none := by
  cases hc : checkTail l with
  | none => rfl
  | some p =>
    obtain ⟨d, r⟩ := p
    obtain ⟨-, hl⟩ := checkTail_some hc
    rw [hl] at h
    simp [kpTail17] at h

theorem checkTail_none_of_get13 {l : List Char} (h : l.get? 13 ≠ some '"') :
    checkTail l = none := by
  cases hc : checkTail l with
  | none => rfl
  | some p =>
    obtain ⟨d, r⟩ := p
    obtain ⟨-, hl⟩ := checkTail_some hc
    rw [hl] at h
    rw [List.get?_eq_getElem?, List.getElem?_append_left (by simp [kpTail17]), ← List.get?_eq_getElem?] at h
    simp [kpTail17] at h

theorem kpScan_no_quote (u : List Char) (h : ∀ c ∈ u, c ≠ '"') (r : List Char) :
    kpScan (u ++ r) = u ++ kpScan r := by
  induction u with
  | nil => simp
  | cons c t ih =>
    rw [List.cons_append, kpScan_cons_none (tryMatch_ne_quote (h c (by simp)) _),
      ih fun x hx => h x (by simp [hx]), List.cons_append]

theorem scanTrans_noquote (u : List Char) (h : ∀ c ∈ u, c ≠ '"') : ScanTrans u :=
  fun r => kpScan_no_quote u h r

theorem scanTrans_append {u v : List Char} (hu : ScanTrans u) (hv : ScanTrans v) :
    ScanTrans (u ++ v) := fun r => by
  rw [List.append_assoc, hu, hv, List.append_assoc]

theorem kpTryHere_none_of_checkTail {l : List Char} (h : checkTail l = none) :
    kpTryHere l = none := by
  simp [kpTryHere, h]

theorem kpLoop_step {c : Char} {rest wRev : List Char} (h : kpTryHere (c :: rest) = none)
    (hw : isWordChar c = true) : kpLoop wRev (c :: rest) = kpLoop (c :: wRev) rest := by
  simp [kpLoop, h, hw]

theorem kpLoop_stop {c : Char} {rest wRev : List Char} (h : kpTryHere (c :: rest) = none)
    (hw : isWordChar c = false) : kpLoop wRev (c :: rest) = none := by
  simp [kpLoop, h, hw]

theorem kpLoop_word_fail (v : List Char) (hv : ∀ x ∈ v, isWordChar x = true ∧ x ≠ '_')
    (c : Char) (hc : isWordChar c = false) (rest : List Char) :
    ∀ wRev : List Char, kpLoop wRev (v ++ c :: rest) = none := by
  induction v with
  | nil =>
    intro wRev
    have hcu : c ≠ '_' := fun he => by subst he; exact absurd hc (by decide)
    have h1 : kpTryHere (c :: rest) = none :=
      kpTryHere_none_of_checkTail (checkTail_ne_underscore (by simp [hcu]))
    simp [kpLoop, h1, hc]
  | cons a t ih =>
    intro wRev
    obtain ⟨haw, hau⟩ := hv a (by simp)
    have h1 : kpTryHere (a :: (t ++ c :: rest)) = none :=
      kpTryHere_none_of_checkTail (checkTail_ne_underscore (by simp [hau]))
    rw [List.cons_append, kpLoop_step h1 haw]
    exact ih (fun x hx => hv x (by simp [hx])) _

theorem scanTrans_qtok (v : List Char) (hne : v ≠ [])
    (hv : ∀ x ∈ v, isWordChar x = true ∧ x ≠ '_')
    (c : Char) (hcw : isWordChar c = false) (hcq : c ≠ '"') :
    ScanTrans ('"' :: v ++ '"' :: [c]) := by
  intro r
  obtain ⟨a, t, rfl⟩ : ∃ a t, v = a :: t := by
    cases v with
    | nil => exact absurd rfl hne
    | cons a t => exact ⟨a, t, rfl⟩
  have hmt : tryMatch ('"' :: a :: (t ++ '"' :: c :: r)) = none := by
    simp only [tryMatch, (hv a (by simp)).1, if_pos]
    rw [kpLoop_word_fail t (fun x hx => hv x (by simp [hx])) '"' (by decide)]
    simp
  rw [show ('"' :: (a :: t) ++ '"' :: [c]) ++ r = '"' :: a :: (t ++ '"' :: c :: r) by simp]
  rw [kpScan_cons_none hmt]
  rw [show a :: (t ++ '"' :: c :: r) = (a :: t) ++ ('"' :: c :: r) by simp]
  rw [kpScan_no_quote (a :: t) (fun x hx => by
    have := (hv x hx).1
    intro he; subst he; exact absurd this (by decide))]
  rw [kpScan_cons_none (tryMatch_quote_nonword hcw _)]
  rw [kpScan_cons_none (tryMatch_ne_quote hcq _)]
  simp

theorem scanTrans_preText : ScanTrans preText := by
  exact scanTrans_append (scanTrans_noquote "[\n  \x7b\n    ".data (by decide))
    (scanTrans_append (scanTrans_qtok "id".data (by decide) (by decide) ':' (by decide) (by decide))
    (scanTrans_append (scanTrans_noquote " ".data (by decide))
    (scanTrans_append (scanTrans_qtok "A".data (by decide) (by decide) ',' (by decide) (by decide))
    (scanTrans_append (scanTrans_noquote "\n    ".data (by decide))
    (scanTrans_append (scanTrans_qtok "camera".data (by decide) (by decide) ':' (by decide) (by decide))
    (scanTrans_append (scanTrans_noquote " ".data (by decide))
    (scanTrans_append (scanTrans_qtok "c1".data (by decide) (by decide) ',' (by decide) (by decide))
    (scanTrans_append (scanTrans_noquote "\n    ".data (by decide))
    (scanTrans_append (scanTrans_qtok "width".data (by decide) (by decide) ':' (by decide) (by decide))
    (scanTrans_append (scanTrans_noquote " 640,\n    ".data (by decide))
    (scanTrans_append (scanTrans_qtok "height".data (by decide) (by decide) ':' (by decide) (by decide))
    (scanTrans_append (scanTrans_noquote " 480,\n    ".data (by decide))
    (scanTrans_append (scanTrans_qtok "frames".data (by decide) (by decide) ':' (by decide) (by decide))
    (scanTrans_append (scanTrans_noquote " \x7b\n      ".data (by decide))
    (scanTrans_append (scanTrans_qtok "0".data (by decide) (by decide) ':' (by decide) (by decide))
    (scanTrans_noquote " \x7b\n        ".data (by decide)))))))))))))))))

theorem kpScan_id_of_no_quote (u : List Char) (h : ∀ c ∈ u, c ≠ '"') : kpScan u = u := by
  have := kpScan_no_quote u h []
  rw [kpScan_nil, List.append_nil] at this
  simpa using this

theorem kpScan_postText : kpScan postText = postText :=
  kpScan_id_of_no_quote postText (by decide)

theorem kpKeyChars_word {w : List Char} (hw : ∀ c ∈ w, isWordChar c = true)
    {D : Char} (hD : D.isDigit = true) :
    ∀ c ∈ kpKeyChars w D, isWordChar c = true := by
  intro c hc
  simp only [kpKeyChars, List.mem_append, List.mem_cons, List.not_mem_nil, or_false] at hc
  rcases hc with hc | hc
  · exact hw c hc
  · rcases hc with rfl | rfl | rfl | rfl | rfl | rfl | rfl | rfl | rfl | rfl | rfl | hc
    · decide
    · decide
    · decide
    · decide
    · decide
    · decide
    · decide
    · decide
    · decide
    · decide
    · decide
    · rcases hc with rfl | rfl
      · exact digit_isWordChar hD
      · decide

theorem checkTail_kp (D : Char) (hD : D.isDigit = true) (X : List Char) :
    checkTail (kpKeyChars [] D ++ '"' :: ':' :: ' ' :: '[' :: X) = some (D, X) := by
  have h1 : (kpKeyChars [] D ++ '"' :: ':' :: ' ' :: '[' :: X).take 17 = kpTail17 D := rfl
  have h2 : (kpKeyChars [] D ++ '"' :: ':' :: ' ' :: '[' :: X).drop 17 = X := rfl
  have h3 : (kpKeyChars [] D ++ '"' :: ':' :: ' ' :: '[' :: X)[11]? = some D := rfl
  simp [checkTail, h3, h1, h2, hD]

theorem kpLoop_at_kp (D : Char) (hD : D.isDigit = true) {X content tail : List Char}
    (hX : contentScan X = some (content, tail)) :
    ∀ (v wRev : List Char), (∀ x ∈ v, isWordChar x = true) →
    kpLoop wRev (v ++ (kpKeyChars [] D ++ '"' :: ':' :: ' ' :: '[' :: X)) =
      some (wRev.reverse ++ v, D, content, tail) := by
  intro v
  induction v with
  | nil =>
    intro wRev _
    have hTry : kpTryHere ('_' :: 'k' :: 'e' :: 'y' :: 'p' :: 'o' :: 'i' :: 'n' :: 't' :: 's' ::
        '_' :: D :: 'd' :: '"' :: ':' :: ' ' :: '[' :: X) = some (D, content, tail) := by
      simp [kpTryHere, show checkTail ('_' :: 'k' :: 'e' :: 'y' :: 'p' :: 'o' :: 'i' :: 'n' ::
        't' :: 's' :: '_' :: D :: 'd' :: '"' :: ':' :: ' ' :: '[' :: X) = some (D, X) from
        checkTail_kp D hD X, hX]
    rw [List.nil_append]
    rw [show kpKeyChars [] D ++ '"' :: ':' :: ' ' :: '[' :: X =
      '_' :: 'k' :: 'e' :: 'y' :: 'p' :: 'o' :: 'i' :: 'n' :: 't' :: 's' ::
        '_' :: D :: 'd' :: '"' :: ':' :: ' ' :: '[' :: X from rfl]
    simp [kpLoop, hTry]
  | cons a t ih =>
    intro wRev hv
    have hget : (a :: (t ++ (kpKeyChars [] D ++ '"' :: ':' :: ' ' :: '[' :: X))).get? 13 ≠
        some '"' := by
      have hsh : a :: (t ++ (kpKeyChars [] D ++ '"' :: ':' :: ' ' :: '[' :: X)) =
          (a :: t ++ kpKeyChars [] D) ++ '"' :: ':' :: ' ' :: '[' :: X := by simp
      rw [hsh]
      rw [List.get?_eq_getElem?, List.getElem?_append_left (by simp [kpKeyChars])]
      have hword : ∀ x ∈ a :: t ++ kpKeyChars [] D, isWordChar x = true := by
        intro x hx
        rcases List.mem_cons.mp hx with rfl | hx
        · exact hv x (by simp)
        · rcases List.mem_append.mp hx with hx | hx
          · exact hv x (by simp [hx])
          · exact kpKeyChars_word (by simp) hD x hx
      intro hcontra
      have hmem : '"' ∈ a :: t ++ kpKeyChars [] D := List.getElem?_mem hcontra
      exact absurd (hword _ hmem) (by decide)
    have h1 : kpTryHere (a :: (t ++ (kpKeyChars [] D ++ '"' :: ':' :: ' ' :: '[' :: X))) = none :=
      kpTryHere_none_of_checkTail (checkTail_none_of_get13 hget)
    rw [List.cons_append, kpLoop_step h1 (hv a (by simp))]
    rw [ih _ fun x hx => hv x (by simp [hx])]
    simp

theorem contentGo_exact {rest : List Char} : ∀ (body acc : List Char),
    (∀ c ∈ body, inClass c = true ∧ c ≠ ']') →
    contentGo acc (body ++ ']' :: rest) = some (acc.reverse ++ body, rest) := by
  intro body
  induction body with
  | nil =>
    intro acc _
    simp [contentGo]
  | cons c t ih =>
    intro acc h
    obtain ⟨hcl, hnb⟩ := h c (by simp)
    rw [List.cons_append]
    rw [show contentGo acc (c :: (t ++ ']' :: rest)) =
      contentGo (c :: acc) (t ++ ']' :: rest) from by simp [contentGo, hcl, hnb]]
    rw [ih (c :: acc) fun x hx => h x (by simp [hx])]
    simp

theorem contentScan_exact {body rest : List Char} (hne : body ≠ [])
    (h : ∀ c ∈ body, inClass c = true ∧ c ≠ ']') :
    contentScan (body ++ ']' :: rest) = some (body, rest) := by
  obtain ⟨c, t, rfl⟩ : ∃ c t, body = c :: t := by
    cases body with
    | nil => exact absurd rfl hne
    | cons c t => exact ⟨c, t, rfl⟩
  rw [List.cons_append]
  rw [show contentScan (c :: (t ++ ']' :: rest)) = contentGo [c] (t ++ ']' :: rest) from by
    simp [contentScan, (h c (by simp)).1]]
  rw [contentGo_exact t [c] fun x hx => h x (by simp [hx])]
  simp

theorem tryMatch_kp {w : List Char} (hw : w ≠ []) (hwc : ∀ c ∈ w, isWordChar c = true)
    {D : Char} (hD : D.isDigit = true) {X content tail : List Char}
    (hX : contentScan X = some (content, tail)) :
    tryMatch ('"' :: (w ++ (kpKeyChars [] D ++ '"' :: ':' :: ' ' :: '[' :: X))) =
      some ('"' :: (kpKeyChars w D ++ '"' :: ':' :: ' ' :: '[' ::
        (deindent content ++ [']'])), tail) := by
  obtain ⟨a, t, rfl⟩ : ∃ a t, w = a :: t := by
    cases w with
    | nil => exact absurd rfl hw
    | cons a t => exact ⟨a, t, rfl⟩
  rw [List.cons_append]
  rw [show tryMatch ('"' :: a :: (t ++ (kpKeyChars [] D ++ '"' :: ':' :: ' ' :: '[' :: X))) =
      match kpLoop [a] (t ++ (kpKeyChars [] D ++ '"' :: ':' :: ' ' :: '[' :: X)) with
      | some (w, d, content, tail) =>
        some ('"' :: (kpKeyChars w d ++ '"' :: ':' :: ' ' :: '[' :: (deindent content ++ [']'])), tail)
      | none => none from by
    simp [tryMatch, hwc a (by simp)]]
  rw [kpLoop_at_kp D hD hX t [a] fun x hx => hwc x (by simp [hx])]
  simp [kpKeyChars]

theorem kpLoop_kp_shift (D : Char) (hD : D.isDigit = true) (X : List Char) :
    ∀ (v wRev : List Char), (∀ x ∈ v, isWordChar x = true) →
    kpLoop wRev (v ++ (kpKeyChars [] D ++ '"' :: ':' :: ' ' :: '[' :: X)) =
      kpLoop (v.reverse ++ wRev) (kpKeyChars [] D ++ '"' :: ':' :: ' ' :: '[' :: X) := by
  intro v
  induction v with
  | nil => intro wRev _; simp
  | cons a t ih =>
    intro wRev hv
    have hget : (a :: (t ++ (kpKeyChars [] D ++ '"' :: ':' :: ' ' :: '[' :: X))).get? 13 ≠
        some '"' := by
      have hsh : a :: (t ++ (kpKeyChars [] D ++ '"' :: ':' :: ' ' :: '[' :: X)) =
          (a :: t ++ kpKeyChars [] D) ++ '"' :: ':' :: ' ' :: '[' :: X := by simp
      rw [hsh]
      rw [List.get?_eq_getElem?, List.getElem?_append_left (by simp [kpKeyChars])]
      have hword : ∀ x ∈ a :: t ++ kpKeyChars [] D, isWordChar x = true := by
        intro x hx
        rcases List.mem_cons.mp hx with rfl | hx
        · exact hv x (by simp)
        · rcases List.mem_append.mp hx with hx | hx
          · exact hv x (by simp [hx])
          · exact kpKeyChars_word (by simp) hD x hx
      intro hcontra
      have hmem : '"' ∈ a :: t ++ kpKeyChars [] D := List.getElem?_mem hcontra
      exact absurd (hword _ hmem) (by decide)
    have h1 : kpTryHere (a :: (t ++ (kpKeyChars [] D ++ '"' :: ':' :: ' ' :: '[' :: X))) = none :=
      kpTryHere_none_of_checkTail (checkTail_none_of_get13 hget)
    rw [List.cons_append, kpLoop_step h1 (hv a (by simp))]
    rw [ih _ fun x hx => hv x (by simp [hx])]
    simp

theorem kpLoop_kp_suffix_empty (D : Char) (hD : D.isDigit = true) (wRev : List Char) :
    kpLoop wRev (kpKeyChars [] D ++ '"' :: ':' :: ' ' :: '[' :: ']' :: postText) = none := by
  have hDu : D ≠ '_' := fun he => absurd (he ▸ hD) (by decide)
  have hDw : isWordChar D = true := digit_isWordChar hD
  rw [show kpKeyChars [] D ++ '"' :: ':' :: ' ' :: '[' :: ']' :: postText =
    '_' :: 'k' :: 'e' :: 'y' :: 'p' :: 'o' :: 'i' :: 'n' :: 't' :: 's' ::
      '_' :: D :: 'd' :: '"' :: ':' :: ' ' :: '[' :: ']' :: postText from rfl]
  rw [kpLoop_step (by
    simp [kpTryHere, show checkTail ('_' :: 'k' :: 'e' :: 'y' :: 'p' :: 'o' :: 'i' :: 'n' ::
      't' :: 's' :: '_' :: D :: 'd' :: '"' :: ':' :: ' ' :: '[' :: ']' :: postText) =
      some (D, ']' :: postText) from checkTail_kp D hD (']' :: postText),
      show contentScan (']' :: postText) = none from rfl]) (by decide)]
  rw [kpLoop_step (kpTryHere_none_of_checkTail (checkTail_ne_underscore (by simp))) (by decide)]
  rw [kpLoop_step (kpTryHere_none_of_checkTail (checkTail_ne_underscore (by simp))) (by decide)]
  rw [kpLoop_step (kpTryHere_none_of_checkTail (checkTail_ne_underscore (by simp))) (by decide)]
  rw [kpLoop_step (kpTryHere_none_of_checkTail (checkTail_ne_underscore (by simp))) (by decide)]
  rw [kpLoop_step (kpTryHere_none_of_checkTail (checkTail_ne_underscore (by simp))) (by decide)]
  rw [kpLoop_step (kpTryHere_none_of_checkTail (checkTail_ne_underscore (by simp))) (by decide)]
  rw [kpLoop_step (kpTryHere_none_of_checkTail (checkTail_ne_underscore (by simp))) (by decide)]
  rw [kpLoop_step (kpTryHere_none_of_checkTail (checkTail_ne_underscore (by simp))) (by decide)]
  rw [kpLoop_step (kpTryHere_none_of_checkTail (checkTail_ne_underscore (by simp))) (by decide)]
  rw [kpLoop_step (kpTryHere_none_of_checkTail (by
    simp [checkTail, show ('_' :: D :: 'd' :: '"' :: ':' :: ' ' :: '[' :: ']' :: postText)[11]? =
      some ' ' from rfl])) (by decide)]
  rw [kpLoop_step (kpTryHere_none_of_checkTail (checkTail_ne_underscore (by simp [hDu]))) hDw]
  rw [kpLoop_step (kpTryHere_none_of_checkTail (checkTail_ne_underscore (by simp))) (by decide)]
  exact kpLoop_stop (kpTryHere_none_of_checkTail (checkTail_ne_underscore (by simp))) (by decide)

theorem tryMatch_kp_empty {w : List Char} (hw : w ≠ []) (hwc : ∀ c ∈ w, isWordChar c = true)
    {D : Char} (hD : D.isDigit = true) :
    tryMatch ('"' :: (w ++ (kpKeyChars [] D ++ '"' :: ':' :: ' ' :: '[' :: ']' :: postText))) =
      none := by
  obtain ⟨a, t, rfl⟩ : ∃ a t, w = a :: t := by
    cases w with
    | nil => exact absurd rfl hw
    | cons a t => exact ⟨a, t, rfl⟩
  rw [List.cons_append]
  rw [show tryMatch ('"' :: a :: (t ++ (kpKeyChars [] D ++ '"' :: ':' :: ' ' :: '[' ::
      ']' :: postText))) =
      match kpLoop [a] (t ++ (kpKeyChars [] D ++ '"' :: ':' :: ' ' :: '[' :: ']' :: postText)) with
      | some (w, d, content, tail) =>
        some ('"' :: (kpKeyChars w d ++ '"' :: ':' :: ' ' :: '[' :: (deindent content ++ [']'])), tail)
      | none => none from by
    simp [tryMatch, hwc a (by simp)]]
  rw [kpLoop_kp_shift D hD _ t [a] fun x hx => hwc x (by simp [hx])]
  rw [kpLoop_kp_suffix_empty D hD]


theorem dropWhile_spaces (k : Nat) (x : List Char) :
    (spaces k ++ x).dropWhile isPySpace = x.dropWhile isPySpace := by
  induction k with
  | zero => rfl
  | succ n ih =>
    rw [show spaces (n + 1) ++ x = ' ' :: (spaces n ++ x) from by
      simp [spaces, List.replicate_succ]]
    simp only [List.dropWhile_cons, show isPySpace ' ' = true from rfl, if_true, ih]

theorem dropWhile_no_space {x : List Char} (h : ∀ c ∈ x, isPySpace c = false) :
    x.dropWhile isPySpace = x := by
  cases x with
  | nil => rfl
  | cons c t => simp [List.dropWhile_cons, h c (by simp)]

theorem pyStrip_no_space {x : List Char} (h : ∀ c ∈ x, isPySpace c = false) :
    pyStrip x = x := by
  have h2 : ∀ c ∈ x.reverse, isPySpace c = false := fun c hc => h c (List.mem_reverse.mp hc)
  simp [pyStrip, dropWhile_no_space h, dropWhile_no_space h2]

theorem pyStrip_spaces_append (k : Nat) (x : List Char) :
    pyStrip (spaces k ++ x) = pyStrip x := by
  simp [pyStrip, dropWhile_spaces]

theorem pyStrip_spaces (k : Nat) : pyStrip (spaces k) = [] := by
  have := pyStrip_spaces_append k []
  simpa using this

theorem numTok_char {c : Char}
    (h : c.isDigit = true ∨ c = '.' ∨ c = '-' ∨ c = '+' ∨ c = 'e') :
    inClass c = true ∧ c ≠ ']' ∧ c ≠ '\n' ∧ isPySpace c = false ∧ c ≠ '"' := by
  have hr : 0x2b ≤ c.toNat ∧ c.toNat ≤ 0x65 ∧ c.toNat ≠ 0x5d ∧ c.toNat ≠ 0x0a ∧
      c.toNat ≠ 0x20 ∧ c.toNat ≠ 9 ∧ c.toNat ≠ 13 ∧ c.toNat ≠ 11 ∧ c.toNat ≠ 12 ∧
      c.toNat ≠ 0x22 := by
    rcases h with h | rfl | rfl | rfl | rfl
    · have := digit_toNat h; omega
    · decide
    · decide
    · decide
    · decide
  refine ⟨?_, ?_, ?_, ?_, ?_⟩
  · simp only [inClass, Bool.or_eq_true, decide_eq_true_eq, Bool.and_eq_true]
    right
    exact ⟨by omega, by omega⟩
  · exact fun he => hr.2.2.1 (by rw [he]; rfl)
  · exact fun he => hr.2.2.2.1 (by rw [he]; rfl)
  · have h20 : c ≠ ' ' := fun he => hr.2.2.2.2.1 (by rw [he]; rfl)
    have h9 : c ≠ '\t' := fun he => hr.2.2.2.2.2.1 (by rw [he]; rfl)
    have h10 : c ≠ '\n' := fun he => hr.2.2.2.1 (by rw [he]; rfl)
    have h13 : c ≠ '\r' := fun he => hr.2.2.2.2.2.2.1 (by rw [he]; rfl)
    simp [isPySpace, h20, h9, h10, h13, hr.2.2.2.2.2.2.2.1, hr.2.2.2.2.2.2.2.2.1]
  · exact fun he => hr.2.2.2.2.2.2.2.2.2 (by rw [he]; rfl)

theorem splitOn_no_newline {xs : List Char} (h : ∀ c ∈ xs, c ≠ '\n') :
    xs.splitOn '\n' = [xs] :=
  List.splitOnP_eq_single _ _ fun x hx => by simp [h x hx]

theorem splitOn_newline_append {xs : List Char} (h : ∀ c ∈ xs, c ≠ '\n') (as : List Char) :
    (xs ++ '\n' :: as).splitOn '\n' = xs :: as.splitOn '\n' :=
  List.splitOnP_first _ _ (fun x hx => by simp [h x hx]) '\n' (by simp) as

theorem splitOn_newline_cons (as : List Char) :
    ('\n' :: as).splitOn '\n' = [] :: as.splitOn '\n' :=
  @splitOn_newline_append [] (by simp) as

theorem numTok_no_newline {n : String} (h : NumTok n) : ∀ c ∈ n.data, c ≠ '\n' :=
  fun c hc => (numTok_char (h.2 c hc)).2.2.1

theorem numTok_no_space {n : String} (h : NumTok n) : ∀ c ∈ n.data, isPySpace c = false :=
  fun c hc => (numTok_char (h.2 c hc)).2.2.2.1

theorem body_split_strip : ∀ (n : String) (rest : List String), NumTok n →
    (∀ m ∈ rest, NumTok m) →
    (((dumpArrItems 10 (JArr.ofList ((n :: rest).map JVal.num)) ++
        '\n' :: spaces 8).splitOn '\n').map pyStrip) = [] :: numLines (n :: rest) ++ [[]] := by
  intro n rest
  induction rest generalizing n with
  | nil =>
    intro hn _
    rw [show dumpArrItems 10 (JArr.ofList ([n].map JVal.num)) ++ '\n' :: spaces 8 =
      '\n' :: ((spaces 10 ++ n.data) ++ '\n' :: spaces 8) from by
        simp [JArr.ofList, dumpArrItems, dumpVal]]
    rw [splitOn_newline_cons,
      splitOn_newline_append (fun c hc => by
        rcases List.mem_append.mp hc with hc | hc
        · simp only [spaces, List.mem_replicate] at hc
          rw [hc.2]; decide
        · exact numTok_no_newline hn c hc),
      splitOn_no_newline (fun c hc => by
        simp only [spaces, List.mem_replicate] at hc
        rw [hc.2]; decide)]
    simp only [List.map_cons, List.map_nil]
    rw [show pyStrip [] = [] from rfl, pyStrip_spaces_append, pyStrip_spaces,
      pyStrip_no_space (numTok_no_space hn)]
    simp [numLines]
  | cons m r ih =>
    intro hn hrest
    obtain ⟨E, hE⟩ : ∃ E, dumpArrItems 10 (.cons (JVal.num m) (JArr.ofList (r.map JVal.num))) =
        '\n' :: E := by
      cases JArr.ofList (r.map JVal.num) <;> exact ⟨_, rfl⟩
    have ihm := ih m (hrest m (by simp)) (fun x hx => hrest x (by simp [hx]))
    rw [show dumpArrItems 10 (JArr.ofList ((m :: r).map JVal.num)) ++ '\n' :: spaces 8 =
      dumpArrItems 10 (.cons (JVal.num m) (JArr.ofList (r.map JVal.num))) ++ '\n' :: spaces 8 from
      rfl, hE, List.cons_append] at ihm
    rw [show dumpArrItems 10 (JArr.ofList ((n :: m :: r).map JVal.num)) ++ '\n' :: spaces 8 =
      '\n' :: ((spaces 10 ++ n.data ++ [',']) ++
        ('\n' :: (E ++ '\n' :: spaces 8))) from by
        simp only [List.map_cons, JArr.ofList]
        rw [show dumpArrItems 10 (.cons (JVal.num n) (.cons (JVal.num m)
            (JArr.ofList (r.map JVal.num)))) =
          '\n' :: (spaces 10 ++ dumpVal 10 (JVal.num n) ++ ',' :: dumpArrItems 10
            (.cons (JVal.num m) (JArr.ofList (r.map JVal.num)))) from rfl, hE]
        simp [dumpVal]]
    rw [splitOn_newline_cons,
      splitOn_newline_append (fun c hc => by
        rcases List.mem_append.mp hc with hc | hc
        · rcases List.mem_append.mp hc with hc | hc
          · simp only [spaces, List.mem_replicate] at hc
            rw [hc.2]; decide
          · exact numTok_no_newline hn c hc
        · simp only [List.mem_singleton] at hc
          rw [hc]; decide)]
    rw [show ('\n' :: (E ++ '\n' :: spaces 8)).splitOn '\n' =
      [] :: ((E ++ '\n' :: spaces 8).splitOn '\n') from splitOn_newline_cons _] at ihm
    simp only [List.map_cons] at ihm ⊢
    rw [show pyStrip [] = [] from rfl] at ihm ⊢
    have htail2 : ((E ++ '\n' :: spaces 8).splitOn '\n').map pyStrip =
        numLines (m :: r) ++ [[]] := by
      have := ihm
      simp only [List.cons_append, List.cons.injEq, true_and] at this
      exact this
    rw [htail2]
    rw [show pyStrip (spaces 10 ++ n.data ++ [',']) = n.data ++ [','] from by
      rw [List.append_assoc, pyStrip_spaces_append]
      exact pyStrip_no_space (fun c hc => by
        rcases List.mem_append.mp hc with hc | hc
        · exact numTok_no_space hn c hc
        · simp only [List.mem_singleton] at hc
          rw [hc]; rfl)]
    simp [numLines]

theorem intercalate_cons₂ {α : Type} (s x y : List α) (t : List (List α)) :
    List.intercalate s (x :: y :: t) = x ++ s ++ List.intercalate s (y :: t) := by
  simp [List.intercalate, List.intersperse]

theorem commaSpaceJoin_cons₂ (n m : String) (r : List String) :
    commaSpaceJoin (n :: m :: r) = n.data ++ ',' :: ' ' :: commaSpaceJoin (m :: r) := by
  simp only [commaSpaceJoin, List.map_cons]
  rw [intercalate_cons₂]
  simp

theorem intercalate_numLines : ∀ (n : String) (rest : List String),
    List.intercalate [' '] (numLines (n :: rest) ++ [[]]) =
      commaSpaceJoin (n :: rest) ++ [' '] := by
  intro n rest
  induction rest generalizing n with
  | nil =>
    simp [numLines, commaSpaceJoin, intercalate_cons₂, List.intercalate]
  | cons m r ih =>
    obtain ⟨L, T, hLT⟩ : ∃ L T, numLines (m :: r) ++ [[]] = L :: T := by
      cases r <;> exact ⟨_, _, rfl⟩
    rw [show numLines (n :: m :: r) ++ [[]] =
      (n.data ++ [',']) :: (numLines (m :: r) ++ [[]]) from by simp [numLines]]
    rw [hLT, intercalate_cons₂, ← hLT, ih, commaSpaceJoin_cons₂]
    simp

theorem commaSpaceJoin_ends : ∀ (n : String) (rest : List String), NumTok n →
    (∀ m ∈ rest, NumTok m) →
    ∃ c0 c1, (commaSpaceJoin (n :: rest)).head? = some c0 ∧
      (commaSpaceJoin (n :: rest)).getLast? = some c1 ∧
      isPySpace c0 = false ∧ isPySpace c1 = false := by
  intro n rest
  induction rest generalizing n with
  | nil =>
    intro hn _
    obtain ⟨c, t, hct⟩ : ∃ c t, n.data = c :: t := by
      cases hd : n.data with
      | nil => exact absurd hd hn.1
      | cons c t => exact ⟨c, t, rfl⟩
    refine ⟨c, (c :: t).getLast (by simp), ?_, ?_, ?_, ?_⟩
    · simp [commaSpaceJoin, List.intercalate, hct]
    · simp [commaSpaceJoin, List.intercalate, hct, List.getLast?_eq_getLast]
    · exact numTok_no_space hn c (by rw [hct]; simp)
    · exact numTok_no_space hn _ (by rw [hct]; exact List.getLast_mem _)
  | cons m r ih =>
    intro hn hrest
    obtain ⟨c0', c1', hh', hl', hs0', hs1'⟩ :=
      ih m (hrest m (by simp)) (fun x hx => hrest x (by simp [hx]))
    obtain ⟨c, t, hct⟩ : ∃ c t, n.data = c :: t := by
      cases hd : n.data with
      | nil => exact absurd hd hn.1
      | cons c t => exact ⟨c, t, rfl⟩
    refine ⟨c, c1', ?_, ?_, ?_, ?_⟩
    · rw [commaSpaceJoin_cons₂, List.head?_append, hct]
      rfl
    · rw [commaSpaceJoin_cons₂,
        show n.data ++ ',' :: ' ' :: commaSpaceJoin (m :: r) =
          (n.data ++ [',', ' ']) ++ commaSpaceJoin (m :: r) from by simp,
        List.getLast?_append, hl']
      rfl
    · exact numTok_no_space hn c (by rw [hct]; simp)
    · exact hs1'

theorem pyStrip_pad {J : List Char} {c0 c1 : Char} (hh : J.head? = some c0)
    (hl : J.getLast? = some c1) (h0 : isPySpace c0 = false) (h1 : isPySpace c1 = false) :
    pyStrip (' ' :: (J ++ [' '])) = J := by
  obtain ⟨t, rfl⟩ : ∃ t, J = c0 :: t := by
    cases J with
    | nil => simp at hh
    | cons a t =>
      have ha : a = c0 := by simpa using hh
      exact ⟨t, by rw [ha]⟩
  obtain ⟨M, hM⟩ : ∃ M, (c0 :: t).reverse = c1 :: M := by
    have : (c0 :: t).reverse.head? = some c1 := by rw [List.head?_reverse]; exact hl
    cases hr : (c0 :: t).reverse with
    | nil => rw [hr] at this; simp at this
    | cons a M => rw [hr] at this; simp at this; exact ⟨M, by rw [this]⟩
  unfold pyStrip
  rw [show (' ' :: ((c0 :: t) ++ [' '])).dropWhile isPySpace =
      ((c0 :: t) ++ [' ']).dropWhile isPySpace from by
    simp [List.dropWhile_cons, show isPySpace ' ' = true from rfl]]
  rw [show ((c0 :: t) ++ [' ']).dropWhile isPySpace = (c0 :: t) ++ [' '] from by
    simp [List.dropWhile_cons, h0]]
  rw [show ((c0 :: t) ++ [' ']).reverse = ' ' :: (c1 :: M) from by
    rw [List.reverse_append, hM]; rfl]
  rw [show (' ' :: (c1 :: M)).dropWhile isPySpace = c1 :: M from by
    simp [List.dropWhile_cons, h1, show isPySpace ' ' = true from rfl]]
  rw [← hM, List.reverse_reverse]

theorem deindent_body {ns : List String} (hne : ns ≠ []) (h : ∀ n ∈ ns, NumTok n) :
    deindent (bodyOf ns) = commaSpaceJoin ns := by
  obtain ⟨n, rest, rfl⟩ : ∃ n rest, ns = n :: rest := by
    cases ns with
    | nil => exact absurd rfl hne
    | cons n rest => exact ⟨n, rest, rfl⟩
  unfold deindent bodyOf
  rw [body_split_strip n rest (h n (by simp)) (fun m hm => h m (by simp [hm]))]
  obtain ⟨L, T, hLT⟩ : ∃ L T, numLines (n :: rest) ++ [[]] = L :: T := by
    cases rest <;> exact ⟨_, _, rfl⟩
  rw [show ([] : List Char) :: numLines (n :: rest) ++ [[]] =
    [] :: (numLines (n :: rest) ++ [[]]) from by simp]
  rw [hLT, intercalate_cons₂, ← hLT, intercalate_numLines]
  obtain ⟨c0, c1, hh, hl, h0, h1⟩ :=
    commaSpaceJoin_ends n rest (h n (by simp)) (fun m hm => h m (by simp [hm]))
  rw [show ([] : List Char) ++ [' '] ++ (commaSpaceJoin (n :: rest) ++ [' ']) =
    ' ' :: (commaSpaceJoin (n :: rest) ++ [' ']) from by simp]
  exact pyStrip_pad hh hl h0 h1

theorem commaSpaceJoin_no_newline : ∀ (ns : List String), (∀ n ∈ ns, NumTok n) →
    ∀ c ∈ commaSpaceJoin ns, c ≠ '\n' := by
  intro ns
  induction ns with
  | nil => intro _ c hc; simp [commaSpaceJoin, List.intercalate] at hc
  | cons n rest ih =>
    intro h c hc
    cases rest with
    | nil =>
      rw [show commaSpaceJoin [n] = n.data from by
        simp [commaSpaceJoin, List.intercalate]] at hc
      exact numTok_no_newline (h n (by simp)) c hc
    | cons m r =>
      rw [commaSpaceJoin_cons₂] at hc
      rcases List.mem_append.mp hc with hc | hc
      · exact numTok_no_newline (h n (by simp)) c hc
      · rcases List.mem_cons.mp hc with rfl | hc
        · decide
        · rcases List.mem_cons.mp hc with rfl | hc
          · decide
          · exact ih (fun x hx => h x (by simp [hx])) c hc

theorem arrItems_chars : ∀ (ns : List String), (∀ n ∈ ns, NumTok n) →
    ∀ c ∈ dumpArrItems 10 (JArr.ofList (ns.map JVal.num)), inClass c = true ∧ c ≠ ']' := by
  intro ns
  induction ns with
  | nil => intro _ c hc; simp [JArr.ofList, dumpArrItems] at hc
  | cons n rest ih =>
    intro h c hc
    cases rest with
    | nil =>
      rw [show dumpArrItems 10 (JArr.ofList ([n].map JVal.num)) =
        '\n' :: (spaces 10 ++ n.data) from by simp [JArr.ofList, dumpArrItems, dumpVal]] at hc
      rcases List.mem_cons.mp hc with rfl | hc
      · exact ⟨by decide, by decide⟩
      · rcases List.mem_append.mp hc with hc | hc
        · simp only [spaces, List.mem_replicate] at hc
          rw [hc.2]; exact ⟨by decide, by decide⟩
        · have := numTok_char ((h n (by simp)).2 c hc)
          exact ⟨this.1, this.2.1⟩
    | cons m r =>
      rw [show dumpArrItems 10 (JArr.ofList ((n :: m :: r).map JVal.num)) =
        '\n' :: (spaces 10 ++ n.data ++ ',' ::
          dumpArrItems 10 (JArr.ofList ((m :: r).map JVal.num))) from by
        simp [JArr.ofList, dumpArrItems, dumpVal]] at hc
      rcases List.mem_cons.mp hc with rfl | hc
      · exact ⟨by decide, by decide⟩
      · rcases List.mem_append.mp hc with hc | hc
        · rcases List.mem_append.mp hc with hc | hc
          · simp only [spaces, List.mem_replicate] at hc
            rw [hc.2]; exact ⟨by decide, by decide⟩
          · have := numTok_char ((h n (by simp)).2 c hc)
            exact ⟨this.1, this.2.1⟩
        · rcases List.mem_cons.mp hc with rfl | hc
          · exact ⟨by decide, by decide⟩
          · exact ih (fun x hx => h x (by simp [hx])) c hc

theorem bodyOf_chars {ns : List String} (h : ∀ n ∈ ns, NumTok n) :
    ∀ c ∈ bodyOf ns, inClass c = true ∧ c ≠ ']' := by
  intro c hc
  unfold bodyOf at hc
  rcases List.mem_append.mp hc with hc | hc
  · exact arrItems_chars ns h c hc
  · rcases List.mem_cons.mp hc with rfl | hc
    · exact ⟨by decide, by decide⟩
    · simp only [spaces, List.mem_replicate] at hc
      rw [hc.2]; exact ⟨by decide, by decide⟩

theorem bodyOf_ne_nil (ns : List String) : bodyOf ns ≠ [] := by
  unfold bodyOf
  simp

theorem writeWrapper_canon (w : List Char) (D : Char) (ns : List String)
    (hw : w ≠ []) (hwc : ∀ c ∈ w, isWordChar c = true) (hD : D.isDigit = true)
    (hns : ∀ n ∈ ns, NumTok n) :
    writeWrapperText (canonRecs (String.mk (kpKeyChars w D)) ns) =
      preText ++ '"' :: (kpKeyChars w D ++ '"' :: ':' :: ' ' :: '[' ::
        (commaSpaceJoin ns ++ ']' :: postText)) := by
  unfold writeWrapperText
  rw [show canonRecs (String.mk (kpKeyChars w D)) ns =
    canonRecs (String.mk (kpKeyChars w D)) ns from rfl]
  rw [dumps_canon]
  rw [show (String.mk (kpKeyChars w D)).data = kpKeyChars w D from rfl]
  rw [escapeStr_word (kpKeyChars_word hwc hD)]
  cases ns with
  | nil =>
    rw [show dumpVal 8 (.arr (JArr.ofList (([] : List String).map JVal.num))) ++ postText =
      '[' :: ']' :: postText from rfl]
    rw [show preText ++ '"' :: (kpKeyChars w D ++ '"' :: ':' :: ' ' :: '[' :: ']' :: postText) =
      preText ++ '"' :: (w ++ (kpKeyChars [] D ++ '"' :: ':' :: ' ' :: '[' :: ']' :: postText))
      from by simp [kpKeyChars]]
    rw [scanTrans_preText]
    rw [kpScan_cons_none (tryMatch_kp_empty hw hwc hD)]
    rw [show w ++ (kpKeyChars [] D ++ '"' :: ':' :: ' ' :: '[' :: ']' :: postText) =
      (w ++ kpKeyChars [] D) ++ ('"' :: ':' :: ' ' :: '[' :: ']' :: postText) from by simp]
    rw [kpScan_no_quote (w ++ kpKeyChars [] D) (fun c hc => by
      have : isWordChar c = true := by
        rcases List.mem_append.mp hc with hc | hc
        · exact hwc c hc
        · exact kpKeyChars_word (by simp) hD c hc
      intro he; subst he; exact absurd this (by decide))]
    rw [kpScan_cons_none (tryMatch_quote_nonword (by decide) _)]
    rw [kpScan_id_of_no_quote (':' :: ' ' :: '[' :: ']' :: postText) (by decide)]
    simp [commaSpaceJoin, List.intercalate, kpKeyChars]
  | cons n rest =>
    have hX : contentScan (bodyOf (n :: rest) ++ ']' :: postText) =
        some (bodyOf (n :: rest), postText) :=
      contentScan_exact (bodyOf_ne_nil _) (bodyOf_chars hns)
    rw [show dumpVal 8 (.arr (JArr.ofList ((n :: rest).map JVal.num))) ++ postText =
      '[' :: (bodyOf (n :: rest) ++ ']' :: postText) from by
      rw [show dumpVal 8 (.arr (JArr.ofList ((n :: rest).map JVal.num))) =
        '[' :: (dumpArrItems 10 (JArr.ofList ((n :: rest).map JVal.num)) ++
          '\n' :: (spaces 8 ++ [']'])) from by
        simp only [List.map_cons, JArr.ofList]
        rfl]
      simp [bodyOf]]
    rw [show preText ++ '"' :: (kpKeyChars w D ++ '"' :: ':' :: ' ' :: '[' ::
        (bodyOf (n :: rest) ++ ']' :: postText)) =
      preText ++ '"' :: (w ++ (kpKeyChars [] D ++ '"' :: ':' :: ' ' :: '[' ::
        (bodyOf (n :: rest) ++ ']' :: postText))) from by simp [kpKeyChars]]
    rw [scanTrans_preText]
    rw [kpScan_cons_some (tryMatch_kp hw hwc hD hX)]
    rw [kpScan_postText]
    rw [deindent_body (by simp) hns]
    simp

/-- C3 (amended): in the serialized output of a recording whose frame
document has a key made of a non-empty word-character prefix followed by
`_keypoints_<D>d` for exactly one digit `D`, with a flat array of number
literals as its value, that array is rendered on a single line as
`[v0, v1, ...]` with comma-and-space separated values and no newline inside
the value, regardless of the number of elements (the empty array renders as
`[]`). -/
theorem one_digit_kp_keys_collapsed (w : List Char) (D : Char) (ns : List String)
    (hw : w ≠ []) (hwc : ∀ c ∈ w, isWordChar c = true) (hD : D.isDigit = true)
    (hns : ∀ n ∈ ns, NumTok n) :
    writeWrapperText (canonRecs (String.mk (kpKeyChars w D)) ns) =
      preText ++ '"' :: (kpKeyChars w D ++ '"' :: ':' :: ' ' :: '[' ::
        (commaSpaceJoin ns ++ ']' :: postText)) ∧
    ∀ c ∈ commaSpaceJoin ns, c ≠ '\n' :=
  ⟨writeWrapper_canon w D ns hw hwc hD hns, commaSpaceJoin_no_newline ns hns⟩

theorem one_digit_kp_keys_collapsed_w :
    (writeWrapperText (canonRecs (String.mk (kpKeyChars "pose".data '3')) ["1.5", "-2e+07", "3"]) =
      preText ++ '"' :: (kpKeyChars "pose".data '3' ++ '"' :: ':' :: ' ' :: '[' ::
        (commaSpaceJoin ["1.5", "-2e+07", "3"] ++ ']' :: postText)) ∧
    ∀ c ∈ commaSpaceJoin ["1.5", "-2e+07", "3"], c ≠ '\n') :=
  one_digit_kp_keys_collapsed "pose".data '3' ["1.5", "-2e+07", "3"]
    (by decide) (by decide) (by decide) (by
      intro n hn
      simp only [List.mem_cons, List.not_mem_nil, or_false] at hn
      rcases hn with rfl | rfl | rfl
      · exact ⟨by decide, by decide⟩
      · exact ⟨by decide, by decide⟩
      · exact ⟨by decide, by decide⟩)

/-- C4 (amended): for every key of the form `<word-prefix>_keypoints_2d`
with a non-empty word-character prefix whose value is a flat array of
number literals (of any length, including zero; elements may be negative,
decimal or exponential), the serialized output's array value for that key
contains no embedded newline characters. -/
theorem kp2d_value_newline_free (w : List Char) (ns : List String)
    (hw : w ≠ []) (hwc : ∀ c ∈ w, isWordChar c = true) (hns : ∀ n ∈ ns, NumTok n) :
    ∃ B : List Char,
      writeWrapperText (canonRecs (String.mk (kpKeyChars w '2')) ns) =
        preText ++ '"' :: (kpKeyChars w '2' ++ '"' :: ':' :: ' ' :: '[' ::
          (B ++ ']' :: postText)) ∧ ∀ c ∈ B, c ≠ '\n' :=
  ⟨commaSpaceJoin ns, writeWrapper_canon w '2' ns hw hwc (by decide) hns,
    commaSpaceJoin_no_newline ns hns⟩

theorem kp2d_value_newline_free_w :
    ∃ B : List Char,
      writeWrapperText (canonRecs (String.mk (kpKeyChars "face".data '2')) []) =
        preText ++ '"' :: (kpKeyChars "face".data '2' ++ '"' :: ':' :: ' ' :: '[' ::
          (B ++ ']' :: postText)) ∧ ∀ c ∈ B, c ≠ '\n' :=
  kp2d_value_newline_free "face".data [] (by decide) (by decide) (by intro n hn; simp at hn)
